import Mathlib

set_option maxRecDepth 16000

/-!
Shallow embedding of the MClone voxel-world core (`world.py`, `utils.py`,
`noise.py`, `blocks.py`, all Python 2).

Modelling conventions:
* Python floats are modelled as exact rationals (`ℚ`); Python ints as `ℤ`.
* Python dicts keyed by positions are modelled as functions `Pos → Option _`
  (or `Pos → Bool` for pure membership); Python sets as `Pos → Bool`.
  A dict `KeyError` (or `list.remove` `ValueError`) makes the operation fail,
  modelled by returning `none` in `Option`.
* `collections.deque` queues are Lean lists (left = front).
* The pyglet/OpenGL side (`batch`, `vertex_lists`, `_draw_block`'s and
  `_undraw_block`'s GPU work) is outside the world model; those calls only
  mutate renderer state and are modelled as the identity on world state.
* Python's global `random` module is modelled as a pure stream carried in the
  world state (`rand_seq`/`rand_idx`).
-/

namespace MClone

/-- Integer grid position `(x, y, z)`: a Python tuple of ints. -/
abbrev Pos : Type := Int × Int × Int

/-- Continuous position: a triple of Python floats, modelled exactly as rationals. -/
abbrev QPos : Type := ℚ × ℚ × ℚ

/-- Block types from `blocks.py` (`GrassBlock`, `SandBlock`, `StoneBlock`,
`BrickBlock`).  The texture data they carry is renderer-only and not modelled. -/
inductive BlockType where
  | grass
  | sand
  | stone
  | brick
deriving DecidableEq, Repr

/-- `utils.clamp(minimum, x, maximum) = max(minimum, min(x, maximum))`. -/
def clamp (minimum x maximum : ℚ) : ℚ := max minimum (min x maximum)

/-- Python 2 `round`: round half away from zero (`round(2.5) = 3.0`,
`round(-2.5) = -3.0`), composed with `int(...)` truncation in `discretize`.
Since the rounded value is integral, `int(round(c))` is exactly this. -/
def pyRound (q : ℚ) : Int :=
  if 0 ≤ q then Rat.floor (q + 1/2) else -Rat.floor (-q + 1/2)

/-- `utils.discretize(position)`: `int(round(c))` on each coordinate. -/
def discretize (q : QPos) : Pos := (pyRound q.1, pyRound q.2.1, pyRound q.2.2)

/-- Python `int(...)` applied to a float: truncation toward zero. -/
def pyInt (q : ℚ) : Int := if 0 ≤ q then Rat.floor q else -Rat.floor (-q)

namespace Noise

/-- `noise.fade(t) = t*t*t*(t*(t*6-15)+10)`. -/
def fade (t : ℚ) : ℚ := t * t * t * (t * (t * 6 - 15) + 10)

/-- `noise.lerp(t, a, b) = a + t*(b-a)`. -/
def lerp (t a b : ℚ) : ℚ := a + t * (b - a)

/-- `noise.grad(hash, x, y, z)`.  The hash argument is always a permutation
table entry, a natural number; `%` on nonnegative ints agrees between Python
and `Nat.mod`. -/
def grad (hash : Nat) (x y z : ℚ) : ℚ :=
  let h := hash % 16
  let u := if h < 8 then x else y
  let v := if h < 4 then y else if h == 12 || h == 14 then x else z
  (if h % 2 == 0 then u else -u) + (if h % 4 == 0 then v else -v)

/-- The 256-entry permutation table literal from `noise.py`. -/
def pBase : List Nat :=
  [151, 160, 137, 91, 90, 15, 131, 13, 201, 95, 96, 53, 194, 233, 7, 225,
   140, 36, 103, 30, 69, 142, 8, 99, 37, 240, 21, 10, 23, 190, 6, 148, 247,
   120, 234, 75, 0, 26, 197, 62, 94, 252, 219, 203, 117, 35, 11, 32, 57,
   177, 33, 88, 237, 149, 56, 87, 174, 20, 125, 136, 171, 168, 68, 175,
   74, 165, 71, 134, 139, 48, 27, 166, 77, 146, 158, 231, 83, 111, 229,
   122, 60, 211, 133, 230, 220, 105, 92, 41, 55, 46, 245, 40, 244, 102,
   143, 54, 65, 25, 63, 161, 1, 216, 80, 73, 209, 76, 132, 187, 208,
   89, 18, 169, 200, 196, 135, 130, 116, 188, 159, 86, 164, 100, 109, 198,
   173, 186, 3, 64, 52, 217, 226, 250, 124, 123, 5, 202, 38, 147, 118,
   126, 255, 82, 85, 212, 207, 206, 59, 227, 47, 16, 58, 17, 182, 189,
   28, 42, 223, 183, 170, 213, 119, 248, 152, 2, 44, 154, 163, 70, 221,
   153, 101, 155, 167, 43, 172, 9, 129, 22, 39, 253, 19, 98, 108, 110,
   79, 113, 224, 232, 178, 185, 112, 104, 218, 246, 97, 228, 251, 34, 242,
   193, 238, 210, 144, 12, 191, 179, 162, 241, 81, 51, 145, 235, 249, 14,
   239, 107, 49, 192, 214, 31, 181, 199, 106, 157, 184, 84, 204, 176,
   115, 121, 50, 45, 127, 4, 150, 254, 138, 236, 205, 93, 222, 114, 67,
   29, 24, 72, 243, 141, 128, 195, 78, 66, 215, 61, 156, 180]

/-- `p = 2*[...]` in Python: the table concatenated with itself (512 entries). -/
def p : List Nat := pBase ++ pBase

/-- Indexing `p[i]`.  Out-of-range access would be a Python `IndexError`;
claim C10 shows every index actually used lies in `[0, 511)`, so the fallback
value 0 is never produced. -/
def pGet (i : Int) : Nat := p.getD i.toNat 0

/-- Python float modulo with positive modulus 255: `x % 255 ∈ [0, 255)`. -/
def pymod255 (x : ℚ) : ℚ := x - 255 * Rat.floor (x / 255)

/-- The lattice coordinate `int(x % 255)` computed at the top of `noise`. -/
def lat (x : ℚ) : Int := pyInt (pymod255 x)

/-- `noise.noise(x, y, z)`: classic 3D gradient noise ported from Perlin's
reference implementation. -/
def noise (x y z : ℚ) : ℚ :=
  let X := lat x
  let Y := lat y
  let Z := lat z
  let xf := x - pyInt x
  let yf := y - pyInt y
  let zf := z - pyInt z
  let u := fade xf
  let v := fade yf
  let w := fade zf
  let A : Int := pGet X + Y
  let AA : Int := pGet A + Z
  let AB : Int := pGet (A + 1) + Z
  let B : Int := pGet (X + 1) + Y
  let BA : Int := pGet B + Z
  let BB : Int := pGet (B + 1) + Z
  lerp w (lerp v (lerp u (grad (pGet AA) xf yf zf)
                         (grad (pGet BA) (xf-1) yf zf))
                 (lerp u (grad (pGet AB) xf (yf-1) zf)
                         (grad (pGet BB) (xf-1) (yf-1) zf)))
         (lerp v (lerp u (grad (pGet (AA+1)) xf yf (zf-1))
                         (grad (pGet (BA+1)) (xf-1) yf (zf-1)))
                 (lerp u (grad (pGet (AB+1)) xf (yf-1) (zf-1))
                         (grad (pGet (BB+1)) (xf-1) (yf-1) (zf-1))))

/-- The list of indices at which `noise x y z` reads the doubled permutation
table `p` (in source order: `p[X]`, `p[A]`, `p[A+1]`, `p[X+1]`, `p[B]`,
`p[B+1]`, then the eight corner reads). -/
def noiseIndices (x y z : ℚ) : List Int :=
  let X := lat x
  let Y := lat y
  let Z := lat z
  let A : Int := pGet X + Y
  let B : Int := pGet (X + 1) + Y
  let AA : Int := pGet A + Z
  let AB : Int := pGet (A + 1) + Z
  let BA : Int := pGet B + Z
  let BB : Int := pGet (B + 1) + Z
  [X, A, A + 1, X + 1, B, B + 1,
   AA, BA, AB, BB, AA + 1, BA + 1, AB + 1, BB + 1]

/-- `noise.fbm(x, y, z)` with the default parameters `octaves=8`,
`lacunarity=2.0`, `gain=0.5` (no caller in the repository overrides them).
The fold state is `(accum, amplitude, frequency)`. -/
def fbm (x y z : ℚ) : ℚ :=
  ((List.range 8).foldl
    (fun (acc : ℚ × ℚ × ℚ) _ =>
      (acc.1 + acc.2.1 * noise (x * acc.2.2) (y * acc.2.2) (z * acc.2.2),
       acc.2.1 * (1/2), acc.2.2 * 2))
    (0, 1, 1)).1

end Noise

/-- A deferred `(func, args)` pair sitting in one of the two deques.
`drawGL`/`undrawGL` are `(_draw_block, (pos,))` / `(_undraw_block, (pos,))`
(they only touch the renderer); `genChunk c` is `(generate_chunk, (c, False))`;
`genColumn` is `(_generate_chunk, (x, z, smoothness, max_height))`. -/
inductive WorkItem where
  | drawGL (pos : Pos)
  | undrawGL (pos : Pos)
  | genChunk (c : Pos)
  | genColumn (x z : Int) (smoothness : ℚ) (maxHeight : Nat)
deriving DecidableEq, Repr

/-- The mutable state of `World` (`__init__`), renderer fields
(`batch`, `group`, `vertex_lists`) excluded.  `current_chunk` starts at the
float-infinity sentinel, modelled as `none`: the sentinel chunk coordinate is
distinct from every integer chunk coordinate, and undrawing it is a no-op
(its `chunks.get` entry is empty), so `none` yields the same world state.
`drawn_blocks` stores `blocks[pos]` as the value in Python; only membership is
ever consumed, so the model keeps the key set. -/
structure WState where
  blocks : Pos → Option BlockType
  drawn_blocks : Pos → Bool
  chunks : Pos → List Pos
  chunks_generated : Pos → Bool
  current_chunk : Option Pos
  drawing_queue : List WorkItem
  generation_queue : List WorkItem
  rand_seq : Nat → Nat
  rand_idx : Nat

/-- The freshly constructed world of `World.__init__`. -/
def initState (seq : Nat → Nat) : WState :=
  { blocks := fun _ => none
    drawn_blocks := fun _ => false
    chunks := fun _ => []
    chunks_generated := fun _ => false
    current_chunk := none
    drawing_queue := []
    generation_queue := []
    rand_seq := seq
    rand_idx := 0 }

/-- Point update of a function-modelled dict/set. -/
def updFun {β : Type} (f : Pos → β) (k : Pos) (v : β) : Pos → β :=
  fun q => if q = k then v else f q

/-- Python `list.remove`: drop the first occurrence (the caller has checked
membership; on a list not containing `x` it returns the list unchanged, a case
the `Option` guards below never reach). -/
def removeFirst (x : Pos) : List Pos → List Pos
  | [] => []
  | y :: ys => if y = x then ys else y :: removeFirst x ys

/-- `World.neighbors(position)`: the six face neighbors, in generator order
(axis 0 direction -1, axis 0 direction +1, axis 1 -1, axis 1 +1, axis 2 -1,
axis 2 +1). -/
def neighbors (pos : Pos) : List Pos :=
  [(pos.1 - 1, pos.2.1, pos.2.2), (pos.1 + 1, pos.2.1, pos.2.2),
   (pos.1, pos.2.1 - 1, pos.2.2), (pos.1, pos.2.1 + 1, pos.2.2),
   (pos.1, pos.2.1, pos.2.2 - 1), (pos.1, pos.2.1, pos.2.2 + 1)]

/-- `World.exposed(position)`: true iff some face neighbor is not in `blocks`. -/
def exposed (s : WState) (pos : Pos) : Bool :=
  (neighbors pos).any fun n => (s.blocks n).isNone

/-- `World.chunk_position` on an integer position: `discretize` is the
identity there, and Python 2 `/` on ints is floor division. -/
def chunk_position (pos : Pos) : Pos :=
  (pos.1.fdiv 16, 0, pos.2.2.fdiv 16)

/-- `World.chunk_position` on a float position (as called by `load_chunks`). -/
def chunk_position_q (q : QPos) : Pos := chunk_position (discretize q)

/-- `World.draw_block(position, urgent)`.  Reading
`self.blocks[position]` raises `KeyError` when absent (`none`).  The position
is recorded in `drawn_blocks` first; `_draw_block` (urgent) only touches the
renderer, non-urgent appends `(_draw_block, (position,))` to the drawing queue. -/
def draw_block (s : WState) (pos : Pos) (urgent : Bool) : Option WState :=
  match s.blocks pos with
  | none => none
  | some _ =>
    let s := { s with drawn_blocks := updFun s.drawn_blocks pos true }
    if urgent then some s
    else some { s with drawing_queue := s.drawing_queue ++ [.drawGL pos] }

/-- `World.undraw_block(position, urgent)`.  `del self.drawn_blocks[position]`
raises `KeyError` when absent (`none`); `_undraw_block` only touches the
renderer, non-urgent appends `(_undraw_block, (position,))` to the drawing
queue. -/
def undraw_block (s : WState) (pos : Pos) (urgent : Bool) : Option WState :=
  if s.drawn_blocks pos then
    let s := { s with drawn_blocks := updFun s.drawn_blocks pos false }
    if urgent then some s
    else some { s with drawing_queue := s.drawing_queue ++ [.undrawGL pos] }
  else none

/-- One loop iteration of `World.redraw_neighbors`: skip unoccupied neighbors;
a drawn neighbor that is no longer exposed is undrawn, an undrawn exposed one
is drawn (both with the default `urgent=True`).  The membership guards make
the `KeyError` branches of `draw_block`/`undraw_block` unreachable, so the
`getD` fallback is never taken. -/
def redraw_step (s : WState) (n : Pos) : WState :=
  if (s.blocks n).isSome then
    if s.drawn_blocks n then
      if exposed s n then s else (undraw_block s n true).getD s
    else
      if exposed s n then (draw_block s n true).getD s else s
  else s

/-- `World.redraw_neighbors(position)`. -/
def redraw_neighbors (s : WState) (pos : Pos) : WState :=
  (neighbors pos).foldl redraw_step s

/-- The state after `remove_block`'s two index mutations
`del self.blocks[position]` and
`self.chunks[chunk_position(position)].remove(position)`. -/
def removed_core (s : WState) (pos : Pos) : WState :=
  { s with blocks := updFun s.blocks pos none
           chunks := updFun s.chunks (chunk_position pos)
                       (removeFirst pos (s.chunks (chunk_position pos))) }

/-- The state after `add_block`'s two index mutations
`self.blocks[position] = block_type` and
`self.chunks.setdefault(chunk_position(position), []).append(position)`. -/
def inserted (s : WState) (pos : Pos) (b : BlockType) : WState :=
  { s with blocks := updFun s.blocks pos (some b)
           chunks := updFun s.chunks (chunk_position pos)
                       (s.chunks (chunk_position pos) ++ [pos]) }

/-- `World.remove_block(position, urgent)`.  Absent position: plain `return`
(no-op).  Otherwise `del self.blocks[position]`, then
`self.chunks[chunk_position(position)].remove(position)` — `KeyError` /
`ValueError` (modelled as `none`) when the chunk index does not hold the
position (the exception would propagate, so no resulting state exists) —
then, if urgent, undraw if drawn and reconcile the neighbors.  (In Python the
membership test happens after the `del`, but the `del` does not change the
chunk index, so testing it on `s` is equivalent.) -/
def remove_block (s : WState) (pos : Pos) (urgent : Bool) : Option WState :=
  if (s.blocks pos).isNone then some s
  else if pos ∈ s.chunks (chunk_position pos) then
    let s2 := removed_core s pos
    if urgent then
      (if s2.drawn_blocks pos then undraw_block s2 pos true else pure s2).bind
        fun s3 => some (redraw_neighbors s3 pos)
    else some s2
  else none

/-- `World.add_block(position, block_type, urgent)`.  An occupied position is
removed first (with `remove_block`'s default `urgent=True`); the block is
stored and appended to its chunk's collection; if urgent, the position is
drawn when exposed and the neighbors are reconciled. -/
def add_block (s : WState) (pos : Pos) (block_type : BlockType) (urgent : Bool) :
    Option WState :=
  (if (s.blocks pos).isSome then remove_block s pos true else pure s).bind fun s =>
    let s1 := inserted s pos block_type
    if urgent then
      (if exposed s1 pos then draw_block s1 pos true else pure s1).bind
        fun s2 => some (redraw_neighbors s2 pos)
    else some s1

/-- The `(x, z)` columns of a chunk, in `_generate_chunk`'s nested loop order
(`for x in xrange(dx, dx+16): for z in xrange(dz, dz+16)`). -/
def chunk_columns (c : Pos) : List (Int × Int) :=
  (List.range 16).flatMap fun i =>
    (List.range 16).map fun k => (c.1 * 16 + i, c.2.2 * 16 + k)

/-- `random.randint(20, 30)` drawn from the modelled global random stream:
a value in `[20, 30]`, advancing the stream. -/
def randint_20_30 (s : WState) : ℚ × WState :=
  (((20 + s.rand_seq s.rand_idx % 11 : Nat) : ℚ), { s with rand_idx := s.rand_idx + 1 })

/-- `World._generate_chunk(x, z, smoothness, max_height)`: compute the column
height from fractal noise and add grass blocks non-urgently for
`y in xrange(int(height)+1)`.  The height is clamped into `[0, max_height]`,
hence nonnegative, so `int` truncation is `Int.toNat ∘ Rat.floor`. -/
def generate_chunk_column (s : WState) (x z : Int) (smoothness : ℚ)
    (maxHeight : Nat) : Option WState :=
  let height : ℚ := (maxHeight : ℚ) * clamp 0 (Noise.fbm (x / smoothness) (z / smoothness) 0) 1
  (List.range ((Rat.floor height).toNat + 1)).foldlM
    (fun st y => add_block st (x, (y : Int), z) .grass false) s

/-- The `(_generate_chunk, params)` work items `generate_chunk` appends in the
non-urgent case, one per column. -/
def gen_column_items (c : Pos) (smoothness : ℚ) : List WorkItem :=
  (chunk_columns c).map fun xz => .genColumn xz.1 xz.2 smoothness 10

/-- `World.generate_chunk(chunk, urgent)`: no-op if already generated;
otherwise mark generated, draw a fresh smoothness in `[20, 30]`, and either
generate every column now (urgent) or append one generation-queue item per
column.  (`max_height = 10`; `base_level = 5` is computed but never used.) -/
def generate_chunk (s : WState) (c : Pos) (urgent : Bool) : Option WState :=
  if s.chunks_generated c then some s
  else
    let s := { s with chunks_generated := updFun s.chunks_generated c true }
    let (smoothness, s) := randint_20_30 s
    if urgent then
      (chunk_columns c).foldlM
        (fun st xz => generate_chunk_column st xz.1 xz.2 smoothness 10) s
    else
      some { s with generation_queue := s.generation_queue ++ gen_column_items c smoothness }

/-- `World.draw_chunk(chunk)`: generate it (urgently), then queue a draw for
every not-yet-drawn exposed position in its collection. -/
def draw_chunk (s : WState) (c : Pos) : Option WState :=
  (generate_chunk s c true).bind fun s =>
    (s.chunks c).foldlM
      (fun st pos =>
        if ¬ st.drawn_blocks pos ∧ exposed st pos then draw_block st pos false
        else pure st) s

/-- `World.undraw_chunk(chunk)`: queue an undraw for every drawn position in
its collection. -/
def undraw_chunk (s : WState) (c : Pos) : Option WState :=
  (s.chunks c).foldlM
    (fun st pos => if st.drawn_blocks pos then undraw_block st pos false else pure st) s

/-- The 9×9 horizontal square of chunks within `num_adjacent_drawn = 4` of a
chunk, in `change_chunk`'s loop order (`dx` outer, `dy in [0]`, `dz` inner).
All 81 entries are distinct, so the Python `set` holds exactly these. -/
def visible_around (c : Pos) : List Pos :=
  (List.range 9).flatMap fun i =>
    (List.range 9).map fun k => (c.1 + i - 4, c.2.1, c.2.2 + k - 4)

/-- The squared-distance-from-the-origin sort key of `change_chunk`:
`pos[0]**2 + pos[1]**2 + pos[2]**2`. -/
def sq_key (pos : Pos) : Int := pos.1 ^ 2 + pos.2.1 ^ 2 + pos.2.2 ^ 2

/-- Stable insertion of `x` into a key-sorted list, placing `x` before the
first element whose key is not smaller. -/
def insort_by (key : Pos → Int) (x : Pos) : List Pos → List Pos
  | [] => [x]
  | y :: ys => if key y < key x then y :: insort_by key x ys else x :: y :: ys

/-- A stable sort by an integer key, modelling Python's (stable) `sorted`.
A stable sort's output is uniquely determined by the input order, so this
agrees with the source's mergesort on every input. -/
def sort_by_key (key : Pos → Int) : List Pos → List Pos
  | [] => []
  | x :: xs => insort_by key x (sort_by_key key xs)

/-- The chunks `change_chunk(new_chunk)` newly draws (visible around the new
chunk but not around the current one), in processing order: sorted by
`sq_key`, i.e. squared distance from the origin.  Python materialises the set
difference through `list(...)` in unspecified hash order before the stable
sort; the model enumerates it in `visible_around` order, which fixes the
(unspecified) relative order of equal-key chunks only. -/
def draw_list (curr : Option Pos) (new_chunk : Pos) : List Pos :=
  let currVis := match curr with | some c => visible_around c | none => []
  sort_by_key sq_key ((visible_around new_chunk).filter (fun c => c ∉ currVis))

/-- The chunks `change_chunk(new_chunk)` undraws. -/
def undraw_list (curr : Option Pos) (new_chunk : Pos) : List Pos :=
  match curr with
  | none => []
  | some c => (visible_around c).filter (fun x => x ∉ visible_around new_chunk)

/-- The 15×15 square of `(generate_chunk, ((x+dx, y, z+dz), False))` items
appended by `change_chunk` (`num_adjacent_gen = 4 + 3`), in loop order. -/
def gen_chunk_items (new_chunk : Pos) : List WorkItem :=
  (List.range 15).flatMap fun i =>
    (List.range 15).map fun k =>
      .genChunk (new_chunk.1 + i - 7, new_chunk.2.1, new_chunk.2.2 + k - 7)

/-- `World.change_chunk(new_chunk)`: undraw the no-longer-visible chunks, draw
the newly visible ones from the inside out (by `sq_key`), append the wider
ring of generation requests, and move `current_chunk`. -/
def change_chunk (s : WState) (new_chunk : Pos) : Option WState :=
  let toUndraw := undraw_list s.current_chunk new_chunk
  let toDraw := draw_list s.current_chunk new_chunk
  (toUndraw.foldlM undraw_chunk s).bind fun s =>
    (toDraw.foldlM draw_chunk s).bind fun s =>
      some { s with
              generation_queue := s.generation_queue ++ gen_chunk_items new_chunk
              current_chunk := some new_chunk }

/-- `World.load_chunks(position)`. -/
def load_chunks (s : WState) (q : QPos) : Option WState :=
  let new_chunk := chunk_position_q q
  if s.current_chunk ≠ some new_chunk then change_chunk s new_chunk else some s

/-- `World.occupied(position)`. -/
def occupied (s : WState) (q : QPos) : Bool :=
  (s.blocks (discretize q)).isSome

/-- Reading/writing one float coordinate of a position, Python list-index style. -/
def qAxis (q : QPos) : Fin 3 → ℚ
  | 0 => q.1
  | 1 => q.2.1
  | 2 => q.2.2

/-- Writing one float coordinate. -/
def qAxisSet (q : QPos) (a : Fin 3) (v : ℚ) : QPos :=
  match a with
  | 0 => (v, q.2.1, q.2.2)
  | 1 => (q.1, v, q.2.2)
  | 2 => (q.1, q.2.1, v)

/-- Reading one int coordinate of the discretized position. -/
def iAxis (p : Pos) : Fin 3 → Int
  | 0 => p.1
  | 1 => p.2.1
  | 2 => p.2.2

/-- The cell `collides` probes: `new_pos = list(disc_pos);
new_pos[axis] += direction; new_pos[1] -= dy`.  (For `axis = 1` both edits hit
the y coordinate.) -/
def probe_cell (discPos : Pos) (axis : Fin 3) (direction : Int) (dy : Nat) : Pos :=
  let stepped :=
    match axis with
    | 0 => (discPos.1 + direction, discPos.2.1, discPos.2.2)
    | 1 => (discPos.1, discPos.2.1 + direction, discPos.2.2)
    | 2 => (discPos.1, discPos.2.1, discPos.2.2 + direction)
  (stepped.1, stepped.2.1 - dy, stepped.2.2)

/-- Whether any of the `height` probed cells for one axis/direction is solid.
The Python loop breaks after the first hit; since the push happens at most
once, this is equivalent to an existence test. -/
def blocked_below (s : WState) (discPos : Pos) (axis : Fin 3) (direction : Int)
    (height : Nat) : Bool :=
  (List.range height).any fun dy => (s.blocks (probe_cell discPos axis direction dy)).isSome

/-- One `(axis, direction)` iteration of `World.collides`: measure the overlap
of the (current, possibly already pushed) coordinate past the discretized cell
boundary; skip if below `max_overlap = 0.1`; otherwise push back by the excess
when a probed cell is solid. -/
def collide_step (s : WState) (discPos : Pos) (height : Nat) (pos : QPos)
    (axis : Fin 3) (direction : Int) : QPos :=
  let overlap := (qAxis pos axis - (iAxis discPos axis : ℚ)) * direction
  if overlap < 1/10 then pos
  else if blocked_below s discPos axis direction height then
    qAxisSet pos axis (qAxis pos axis - (overlap - 1/10) * direction)
  else pos

/-- The `(axis, direction)` pairs of `collides`' nested loops, in order. -/
def collide_order : List (Fin 3 × Int) :=
  [(0, -1), (0, 1), (1, -1), (1, 1), (2, -1), (2, 1)]

/-- `World.collides(obj)`: sequentially resolve each axis/direction against
the position discretized once up front, mutating the continuous position. -/
def collides (s : WState) (pos : QPos) (height : Nat) : QPos :=
  let discPos := discretize pos
  collide_order.foldl (fun q ad => collide_step s discPos height q ad.1 ad.2) pos

/-- Executing one dequeued `(func, args)` pair.  `_draw_block`/`_undraw_block`
only touch the renderer (`vertex_lists`/`batch`), hence are the identity on
the modelled state. -/
def run_item (s : WState) (it : WorkItem) : Option WState :=
  match it with
  | .drawGL _ => some s
  | .undrawGL _ => some s
  | .genChunk c => generate_chunk s c false
  | .genColumn x z smoothness maxHeight => generate_chunk_column s x z smoothness maxHeight

/-- Tag recording which queue an executed item came from. -/
inductive QTag where
  | drawQ
  | genQ
deriving DecidableEq, Repr

/-- One pass of `update`'s `for queue in self.queues` loop: pop and execute
the front of the drawing queue if nonempty, then of the generation queue if
nonempty (each popped before its call runs, as `popleft` does).  Returns the
executed items in order and whether both queues were empty. -/
def update_round (s : WState) : Option (WState × List (QTag × WorkItem) × Bool) :=
  match s.drawing_queue with
  | [] =>
    match s.generation_queue with
    | [] => some (s, [], true)
    | it :: rest =>
      (run_item { s with generation_queue := rest } it).bind fun s' =>
        some (s', [(.genQ, it)], false)
  | it :: rest =>
    (run_item { s with drawing_queue := rest } it).bind fun s1 =>
      match s1.generation_queue with
      | [] => some (s1, [(.drawQ, it)], false)
      | it2 :: rest2 =>
        (run_item { s1 with generation_queue := rest2 } it2).bind fun s2 =>
          some (s2, [(.drawQ, it), (.genQ, it2)], false)

/-- `World.update(max_time)`.  The wall-clock budget (`time.clock()` elapsed
vs `max_time`) is modelled by a round budget `fuel`: the Python loop runs some
number of rounds determined by real time, returning early only when a round
finds both queues empty.  The executed items are returned as a trace. -/
def update (fuel : Nat) (s : WState) : Option (WState × List (QTag × WorkItem)) :=
  match fuel with
  | 0 => some (s, [])
  | fuel + 1 =>
    (update_round s).bind fun r =>
      if r.2.2 then some (r.1, r.2.1)
      else (update fuel r.1).bind fun r2 => some (r2.1, r.2.1 ++ r2.2)

/-- Squared distance between two chunk coordinates (used to state the drawing
order the specification asserts). -/
def sq_dist (a b : Pos) : Int :=
  (a.1 - b.1) ^ 2 + (a.2.1 - b.2.1) ^ 2 + (a.2.2 - b.2.2) ^ 2

theorem mem_insort_by (key : Pos → Int) (x a : Pos) (l : List Pos) :
    a ∈ insort_by key x l ↔ a = x ∨ a ∈ l := by
  induction l with
  | nil => simp [insort_by]
  | cons y ys ih =>
    rw [insort_by]
    by_cases h : key y < key x
    · rw [if_pos h]
      simp [ih]
      tauto
    · rw [if_neg h]
      simp

theorem pairwise_insort_by (key : Pos → Int) (x : Pos) (l : List Pos)
    (h : List.Pairwise (fun a b => key a ≤ key b) l) :
    List.Pairwise (fun a b => key a ≤ key b) (insort_by key x l) := by
  induction l with
  | nil => simp [insort_by]
  | cons y ys ih =>
    rw [insort_by]
    rcases List.pairwise_cons.mp h with ⟨hy, hys⟩
    by_cases hk : key y < key x
    · rw [if_pos hk]
      refine List.pairwise_cons.mpr ⟨?_, ih hys⟩
      intro b hb
      rcases (mem_insort_by key x b ys).mp hb with rfl | hb
      · exact le_of_lt hk
      · exact hy b hb
    · rw [if_neg hk]
      refine List.pairwise_cons.mpr ⟨?_, h⟩
      intro b hb
      rcases List.mem_cons.mp hb with rfl | hb
      · exact le_of_not_lt hk
      · exact le_trans (le_of_not_lt hk) (hy b hb)

theorem pairwise_sort_by_key (key : Pos → Int) (l : List Pos) :
    List.Pairwise (fun a b => key a ≤ key b) (sort_by_key key l) := by
  induction l with
  | nil => simp [sort_by_key]
  | cons x xs ih => exact pairwise_insort_by key x _ ih

/-- C1, amended: `change_chunk` processes `toDraw` in ascending order of the
sort key `pos[0]**2 + pos[1]**2 + pos[2]**2`, the squared distance from the
**origin** (not from `new_chunk`): whenever chunk `c1` precedes chunk `c2` in
the processed list, `sq_key c1 ≤ sq_key c2`. -/
theorem change_chunk_draw_order_ascending_origin_distance
    (curr : Option Pos) (new_chunk : Pos) :
    List.Pairwise (fun a b => sq_key a ≤ sq_key b) (draw_list curr new_chunk) :=
  pairwise_sort_by_key sq_key _

/-- C1, counterexample to the claim as stated: with the viewpoint moving from
chunk `(100,0,0)` to `(10,0,0)`, chunk `(13,0,0)` is strictly closer to the
new chunk than `(6,0,0)` and both are newly visible, yet `(6,0,0)` (closer to
the origin) is drawn first, so `toDraw` is not processed in ascending distance
from the new chunk. -/
theorem change_chunk_draw_order_not_new_chunk_distance :
    sq_dist (13, 0, 0) (10, 0, 0) < sq_dist (6, 0, 0) (10, 0, 0)
    ∧ ((13, 0, 0) : Pos) ∈ draw_list (some (100, 0, 0)) (10, 0, 0)
    ∧ ((6, 0, 0) : Pos) ∈ draw_list (some (100, 0, 0)) (10, 0, 0)
    ∧ (draw_list (some (100, 0, 0)) (10, 0, 0)).indexOf ((6 : Int), 0, 0)
      < (draw_list (some (100, 0, 0)) (10, 0, 0)).indexOf ((13 : Int), 0, 0) := by
  decide

theorem rat_floor_cast_le (q : ℚ) : (Rat.floor q : ℚ) ≤ q :=
  Rat.le_floor.mp le_rfl

theorem rat_lt_floor_add_one (q : ℚ) : q < (Rat.floor q : ℚ) + 1 := by
  by_contra h
  push_neg at h
  have h' : ((Rat.floor q + 1 : ℤ) : ℚ) ≤ q := by push_cast; linarith
  have := Rat.le_floor.mpr h'
  omega

theorem pymod255_nonneg (x : ℚ) : 0 ≤ Noise.pymod255 x := by
  unfold Noise.pymod255
  have h := rat_floor_cast_le (x / 255)
  have : (255 : ℚ) * Rat.floor (x / 255) ≤ 255 * (x / 255) := by linarith
  have hx : (255 : ℚ) * (x / 255) = x := by ring
  linarith

theorem pymod255_lt (x : ℚ) : Noise.pymod255 x < 255 := by
  unfold Noise.pymod255
  have h := rat_lt_floor_add_one (x / 255)
  have : (255 : ℚ) * (x / 255) < 255 * (Rat.floor (x / 255) + 1) := by linarith
  have hx : (255 : ℚ) * (x / 255) = x := by ring
  linarith

theorem lat_bounds (x : ℚ) : 0 ≤ Noise.lat x ∧ Noise.lat x ≤ 254 := by
  unfold Noise.lat
  have h0 := pymod255_nonneg x
  have h1 := pymod255_lt x
  rw [pyInt, if_pos h0]
  constructor
  · exact Rat.le_floor.mpr (by exact_mod_cast h0)
  · by_contra h
    push_neg at h
    have : ((255 : ℤ) : ℚ) ≤ Noise.pymod255 x := Rat.le_floor.mp (by omega)
    push_cast at this
    linarith

theorem pGet_le (i : Int) : Noise.pGet i ≤ 255 := by
  have hall : ∀ v ∈ Noise.p, v ≤ 255 := by decide
  unfold Noise.pGet
  by_cases h : i.toNat < Noise.p.length
  · rw [List.getD_eq_getElem _ _ h]
    exact hall _ (List.getElem_mem h)
  · rw [List.getD_eq_default _ _ (le_of_not_lt h)]
    exact Nat.zero_le 255

/-- C10: the base noise function never indexes the permutation table out of
bounds.  For every rational input triple, the lattice coordinates
`int(c % 255)` lie in `[0, 254]`, every table entry is at most 255, the table
has 512 entries, and every index read by `noise` (collected in source order by
`noiseIndices`, the deepest being `p[p[p[X+1]+Y+1]+Z+1]`) is at most 510,
strictly below 512 — so `noise`, a total Lean function, never takes the
out-of-range fallback. -/
theorem noise_never_indexes_out_of_bounds (x y z : ℚ) :
    (0 ≤ Noise.lat x ∧ Noise.lat x ≤ 254)
    ∧ (0 ≤ Noise.lat y ∧ Noise.lat y ≤ 254)
    ∧ (0 ≤ Noise.lat z ∧ Noise.lat z ≤ 254)
    ∧ (∀ v ∈ Noise.p, v ≤ 255)
    ∧ Noise.p.length = 512
    ∧ (∀ i ∈ Noise.noiseIndices x y z, 0 ≤ i ∧ i ≤ 510)
    ∧ (510 : Int) < (Noise.p.length : Int) := by
  obtain ⟨hx0, hx1⟩ := lat_bounds x
  obtain ⟨hy0, hy1⟩ := lat_bounds y
  obtain ⟨hz0, hz1⟩ := lat_bounds z
  refine ⟨⟨hx0, hx1⟩, ⟨hy0, hy1⟩, ⟨hz0, hz1⟩, by decide, by decide, ?_, by decide⟩
  have p1 := pGet_le (Noise.lat x)
  have p2 := pGet_le (Noise.lat x + 1)
  have p3 := pGet_le ((Noise.pGet (Noise.lat x) : Int) + Noise.lat y)
  have p4 := pGet_le ((Noise.pGet (Noise.lat x) : Int) + Noise.lat y + 1)
  have p5 := pGet_le ((Noise.pGet (Noise.lat x + 1) : Int) + Noise.lat y)
  have p6 := pGet_le ((Noise.pGet (Noise.lat x + 1) : Int) + Noise.lat y + 1)
  intro i hi
  simp only [Noise.noiseIndices, List.mem_cons, List.not_mem_nil, or_false] at hi
  rcases hi with rfl | rfl | rfl | rfl | rfl | rfl | rfl | rfl | rfl | rfl | rfl | rfl | rfl | rfl
    <;> omega

theorem pyRound_intCast (n : Int) : pyRound ((n : ℚ)) = n := by
  unfold pyRound
  have hfl : Rat.floor ((n : ℚ) + 1/2) = n := by
    have h1 : ((n : ℤ) : ℚ) ≤ (n : ℚ) + 1/2 := by linarith
    have h2 := rat_lt_floor_add_one ((n : ℚ) + 1/2)
    have h3 := rat_floor_cast_le ((n : ℚ) + 1/2)
    have h4 : (n : ℤ) ≤ Rat.floor ((n : ℚ) + 1/2) := Rat.le_floor.mpr h1
    by_contra hne
    have h5 : (n : ℤ) + 1 ≤ Rat.floor ((n : ℚ) + 1/2) := by omega
    have h6 : ((n : ℤ) + 1 : ℚ) ≤ ((Rat.floor ((n : ℚ) + 1/2) : ℤ) : ℚ) := by
      exact_mod_cast h5
    push_cast at h6
    linarith
  have hfl' : Rat.floor (-(n : ℚ) + 1/2) = -n := by
    have h1 : ((-n : ℤ) : ℚ) ≤ -(n : ℚ) + 1/2 := by
      have : ((-n : ℤ) : ℚ) = -(n : ℚ) := by push_cast; ring
      linarith [this.le]
    have h4 : (-n : ℤ) ≤ Rat.floor (-(n : ℚ) + 1/2) := Rat.le_floor.mpr h1
    have h3 := rat_floor_cast_le (-(n : ℚ) + 1/2)
    by_contra hne
    have h5 : (-n : ℤ) + 1 ≤ Rat.floor (-(n : ℚ) + 1/2) := by omega
    have h6 : ((-n : ℤ) + 1 : ℚ) ≤ ((Rat.floor (-(n : ℚ) + 1/2) : ℤ) : ℚ) := by
      exact_mod_cast h5
    push_cast at h6
    linarith
  by_cases h : (0 : ℚ) ≤ (n : ℚ)
  · rw [if_pos h, hfl]
  · rw [if_neg h, hfl']
    ring

theorem discretize_intCast (p : Pos) :
    discretize ((p.1 : ℚ), (p.2.1 : ℚ), (p.2.2 : ℚ)) = p := by
  unfold discretize
  simp only [pyRound_intCast]

/-- Exposure only depends on the block map. -/
theorem exposed_congr {s s' : WState} (h : s'.blocks = s.blocks) (q : Pos) :
    exposed s' q = exposed s q := by
  unfold exposed
  rw [h]

/-- Everything except the drawn set coincides.  Urgent draw/undraw/reconcile
calls change nothing else. -/
def EqExceptDrawn (s s' : WState) : Prop :=
  s'.blocks = s.blocks ∧ s'.chunks = s.chunks
  ∧ s'.chunks_generated = s.chunks_generated ∧ s'.current_chunk = s.current_chunk
  ∧ s'.drawing_queue = s.drawing_queue ∧ s'.generation_queue = s.generation_queue
  ∧ s'.rand_seq = s.rand_seq ∧ s'.rand_idx = s.rand_idx

theorem eqExceptDrawn_refl (s : WState) : EqExceptDrawn s s :=
  ⟨rfl, rfl, rfl, rfl, rfl, rfl, rfl, rfl⟩

theorem eqExceptDrawn_trans {s t u : WState}
    (h1 : EqExceptDrawn s t) (h2 : EqExceptDrawn t u) : EqExceptDrawn s u := by
  obtain ⟨a1, a2, a3, a4, a5, a6, a7, a8⟩ := h1
  obtain ⟨b1, b2, b3, b4, b5, b6, b7, b8⟩ := h2
  exact ⟨b1.trans a1, b2.trans a2, b3.trans a3, b4.trans a4,
         b5.trans a5, b6.trans a6, b7.trans a7, b8.trans a8⟩

theorem draw_block_true_frame {s s' : WState} {p : Pos}
    (h : draw_block s p true = some s') : EqExceptDrawn s s' := by
  unfold draw_block at h
  cases hb : s.blocks p with
  | none => rw [hb] at h; cases h
  | some b =>
    rw [hb] at h
    simp only [if_pos] at h
    cases h
    exact ⟨rfl, rfl, rfl, rfl, rfl, rfl, rfl, rfl⟩

theorem undraw_block_true_frame {s s' : WState} {p : Pos}
    (h : undraw_block s p true = some s') : EqExceptDrawn s s' := by
  unfold undraw_block at h
  by_cases hd : s.drawn_blocks p
  · rw [if_pos hd] at h
    simp only [if_pos] at h
    cases h
    exact ⟨rfl, rfl, rfl, rfl, rfl, rfl, rfl, rfl⟩
  · rw [if_neg hd] at h
    cases h

theorem redraw_step_frame (s : WState) (n : Pos) :
    EqExceptDrawn s (redraw_step s n) := by
  unfold redraw_step
  by_cases h1 : (s.blocks n).isSome
  · rw [if_pos h1]
    by_cases h2 : s.drawn_blocks n
    · rw [if_pos h2]
      by_cases h3 : exposed s n
      · rw [if_pos h3]; exact eqExceptDrawn_refl s
      · rw [if_neg h3]
        cases hu : undraw_block s n true with
        | none => simp [hu, Option.getD]; exact eqExceptDrawn_refl s
        | some t => simp only [hu, Option.getD]; exact undraw_block_true_frame hu
    · rw [if_neg h2]
      by_cases h3 : exposed s n
      · rw [if_pos h3]
        cases hu : draw_block s n true with
        | none => simp [hu, Option.getD]; exact eqExceptDrawn_refl s
        | some t => simp only [hu, Option.getD]; exact draw_block_true_frame hu
      · rw [if_neg h3]; exact eqExceptDrawn_refl s
  · rw [if_neg h1]; exact eqExceptDrawn_refl s

theorem foldl_redraw_step_frame (L : List Pos) (s : WState) :
    EqExceptDrawn s (L.foldl redraw_step s) := by
  induction L generalizing s with
  | nil => exact eqExceptDrawn_refl s
  | cons n M ih =>
    exact eqExceptDrawn_trans (redraw_step_frame s n) (ih (redraw_step s n))

theorem redraw_neighbors_frame (s : WState) (p : Pos) :
    EqExceptDrawn s (redraw_neighbors s p) :=
  foldl_redraw_step_frame (neighbors p) s

/-- Generic preservation of a predicate along an `Option`-monadic fold. -/
theorem foldlM_option_preserve {α : Type} (P : WState → Prop)
    (f : WState → α → Option WState)
    (hf : ∀ st a st', P st → f st a = some st' → P st') :
    ∀ (l : List α) (st st' : WState), P st → l.foldlM f st = some st' → P st' := by
  intro l
  induction l with
  | nil =>
    intro st st' hP h
    simp only [List.foldlM_nil, Option.pure_def, Option.some.injEq] at h
    exact h ▸ hP
  | cons a l ih =>
    intro st st' hP h
    rw [List.foldlM_cons] at h
    rcases Option.bind_eq_some.mp h with ⟨st1, h1, h2⟩
    exact ih st1 st' (hf st a st1 hP h1) h2

theorem draw_block_true_eq (s : WState) (n : Pos) (h : (s.blocks n).isSome) :
    draw_block s n true = some { s with drawn_blocks := updFun s.drawn_blocks n true } := by
  unfold draw_block
  cases hb : s.blocks n with
  | none => rw [hb] at h; cases h
  | some b => simp

theorem undraw_block_true_eq (s : WState) (n : Pos) (h : s.drawn_blocks n = true) :
    undraw_block s n true = some { s with drawn_blocks := updFun s.drawn_blocks n false } := by
  unfold undraw_block
  rw [if_pos h]
  simp

theorem redraw_step_drawn_self (s : WState) (n : Pos) (h : (s.blocks n).isSome) :
    (redraw_step s n).drawn_blocks n = exposed s n := by
  unfold redraw_step
  rw [if_pos h]
  by_cases hd : s.drawn_blocks n
  · rw [if_pos hd]
    by_cases he : exposed s n
    · rw [if_pos he, hd, he]
    · rw [if_neg he, undraw_block_true_eq s n hd]
      simp only [Bool.not_eq_true] at he
      simp [updFun, he]
  · rw [if_neg hd]
    by_cases he : exposed s n
    · rw [if_pos he, draw_block_true_eq s n h]
      simp [updFun, he]
    · rw [if_neg he]
      simp [Bool.not_eq_true] at hd he
      rw [hd, he]

theorem redraw_step_drawn_other (s : WState) (n q : Pos) (h : q ≠ n) :
    (redraw_step s n).drawn_blocks q = s.drawn_blocks q := by
  unfold redraw_step
  by_cases h1 : (s.blocks n).isSome
  · rw [if_pos h1]
    by_cases hd : s.drawn_blocks n
    · rw [if_pos hd]
      by_cases he : exposed s n
      · rw [if_pos he]
      · rw [if_neg he, undraw_block_true_eq s n hd]
        simp only [Option.getD_some, updFun, if_neg h]
    · rw [if_neg hd]
      by_cases he : exposed s n
      · rw [if_pos he, draw_block_true_eq s n h1]
        simp only [Option.getD_some, updFun, if_neg h]
      · rw [if_neg he]
  · rw [if_neg h1]

theorem foldl_redraw_drawn_not_mem (L : List Pos) (s : WState) (q : Pos)
    (h : q ∉ L) : (L.foldl redraw_step s).drawn_blocks q = s.drawn_blocks q := by
  induction L generalizing s with
  | nil => rfl
  | cons m M ih =>
    simp only [List.mem_cons, not_or] at h
    rw [List.foldl_cons, ih (redraw_step s m) h.2, redraw_step_drawn_other s m q h.1]

theorem foldl_redraw_drawn_mem (L : List Pos) (hnd : L.Nodup) (s : WState)
    (n : Pos) (hn : n ∈ L) (hocc : (s.blocks n).isSome) :
    (L.foldl redraw_step s).drawn_blocks n = exposed s n := by
  induction L generalizing s with
  | nil => cases hn
  | cons m M ih =>
    rcases List.nodup_cons.mp hnd with ⟨hm, hM⟩
    rw [List.foldl_cons]
    rcases List.mem_cons.mp hn with rfl | hn'
    · rw [foldl_redraw_drawn_not_mem M (redraw_step s n) n hm]
      exact redraw_step_drawn_self s n hocc
    · have hb : (redraw_step s m).blocks = s.blocks := (redraw_step_frame s m).1
      rw [ih hM (redraw_step s m) hn' (by rw [hb]; exact hocc)]
      exact exposed_congr hb n

theorem foldl_redraw_drawn_unoccupied (L : List Pos) (s : WState) (q : Pos)
    (h : s.blocks q = none) :
    (L.foldl redraw_step s).drawn_blocks q = s.drawn_blocks q := by
  induction L generalizing s with
  | nil => rfl
  | cons m M ih =>
    rw [List.foldl_cons]
    have hb : (redraw_step s m).blocks = s.blocks := (redraw_step_frame s m).1
    rw [ih (redraw_step s m) (by rw [hb]; exact h)]
    by_cases hq : q = m
    · subst hq
      unfold redraw_step
      rw [if_neg (by rw [h]; simp)]
    · exact redraw_step_drawn_other s m q hq

theorem neighbors_nodup (p : Pos) : (neighbors p).Nodup := by
  simp [neighbors, Prod.ext_iff]
  omega

theorem self_not_mem_neighbors (p : Pos) : p ∉ neighbors p := by
  simp [neighbors, Prod.ext_iff]
  omega

theorem mem_neighbors_ne (p n : Pos) (h : n ∈ neighbors p) : n ≠ p := by
  intro hq
  subst hq
  exact self_not_mem_neighbors _ h

theorem redraw_neighbors_drawn_occupied (s : WState) (p n : Pos)
    (hn : n ∈ neighbors p) (h : (s.blocks n).isSome) :
    (redraw_neighbors s p).drawn_blocks n = exposed s n :=
  foldl_redraw_drawn_mem (neighbors p) (neighbors_nodup p) s n hn h

theorem redraw_neighbors_drawn_not_mem (s : WState) (p q : Pos)
    (h : q ∉ neighbors p) :
    (redraw_neighbors s p).drawn_blocks q = s.drawn_blocks q :=
  foldl_redraw_drawn_not_mem (neighbors p) s q h

theorem redraw_neighbors_drawn_unoccupied (s : WState) (p q : Pos)
    (h : s.blocks q = none) :
    (redraw_neighbors s p).drawn_blocks q = s.drawn_blocks q :=
  foldl_redraw_drawn_unoccupied (neighbors p) s q h

/-- The guarded undraw of `remove_block`'s urgent branch as a total update. -/
def undraw_if_drawn (s : WState) (p : Pos) : WState :=
  if s.drawn_blocks p then { s with drawn_blocks := updFun s.drawn_blocks p false } else s

/-- The guarded draw of `add_block`'s urgent branch as a total update. -/
def draw_if_exposed (s : WState) (p : Pos) : WState :=
  if exposed s p then { s with drawn_blocks := updFun s.drawn_blocks p true } else s

theorem remove_block_absent_eq (s : WState) (p : Pos) (u : Bool)
    (h : s.blocks p = none) : remove_block s p u = some s := by
  unfold remove_block
  rw [if_pos (by rw [h]; rfl)]

theorem remove_block_present_eq (s : WState) (p : Pos) (u : Bool)
    (h : (s.blocks p).isSome) (hc : p ∈ s.chunks (chunk_position p)) :
    remove_block s p u =
      some (if u then redraw_neighbors (undraw_if_drawn (removed_core s p) p) p
            else removed_core s p) := by
  unfold remove_block
  rw [if_neg (by simp only [Option.isNone_iff_eq_none]; intro hn; rw [hn] at h; cases h)]
  rw [if_pos hc]
  cases u with
  | false => rfl
  | true =>
    simp only [if_pos]
    unfold undraw_if_drawn
    by_cases hd : (removed_core s p).drawn_blocks p
    · rw [if_pos hd, if_pos hd, undraw_block_true_eq _ p hd]
      rfl
    · rw [if_neg hd, if_neg hd]
      rfl

theorem remove_block_success_mem (s : WState) (p : Pos) (u : Bool) (s' : WState)
    (h : (s.blocks p).isSome) (hs : remove_block s p u = some s') :
    p ∈ s.chunks (chunk_position p) := by
  unfold remove_block at hs
  rw [if_neg (by simp only [Option.isNone_iff_eq_none]; intro hn; rw [hn] at h; cases h)] at hs
  by_cases hc : p ∈ s.chunks (chunk_position p)
  · exact hc
  · rw [if_neg hc] at hs
    cases hs

theorem add_block_eq_free (s : WState) (p : Pos) (b : BlockType) (u : Bool)
    (hfree : s.blocks p = none) :
    add_block s p b u =
      some (if u then redraw_neighbors (draw_if_exposed (inserted s p b) p) p
            else inserted s p b) := by
  unfold add_block
  rw [if_neg (by rw [hfree]; simp)]
  rw [show (pure s : Option WState) = some s from rfl, Option.some_bind]
  dsimp only
  cases u with
  | false => rfl
  | true =>
    simp only [if_pos]
    unfold draw_if_exposed
    by_cases he : exposed (inserted s p b) p
    · rw [if_pos he, if_pos he,
        draw_block_true_eq _ p (by simp [inserted, updFun])]
      rfl
    · rw [if_neg he, if_neg he]
      rfl

theorem remove_block_blocks_self (s : WState) (p : Pos) (u : Bool) (s' : WState)
    (hs : remove_block s p u = some s') : s'.blocks p = none := by
  cases hb : s.blocks p with
  | none =>
    rw [remove_block_absent_eq s p u hb] at hs
    cases hs
    exact hb
  | some b =>
    have h : (s.blocks p).isSome := by rw [hb]; rfl
    have hc := remove_block_success_mem s p u s' h hs
    rw [remove_block_present_eq s p u h hc] at hs
    cases hs
    cases u with
    | false => simp [removed_core, updFun]
    | true =>
      simp only [if_pos]
      rw [(redraw_neighbors_frame _ p).1]
      unfold undraw_if_drawn
      by_cases hd : (removed_core s p).drawn_blocks p
      · rw [if_pos hd]
        simp [removed_core, updFun]
      · rw [if_neg hd]
        simp [removed_core, updFun]

theorem remove_block_frame (s : WState) (p : Pos) (u : Bool) (s' : WState)
    (hs : remove_block s p u = some s') :
    s'.chunks_generated = s.chunks_generated ∧ s'.current_chunk = s.current_chunk
    ∧ s'.drawing_queue = s.drawing_queue ∧ s'.generation_queue = s.generation_queue
    ∧ s'.rand_seq = s.rand_seq ∧ s'.rand_idx = s.rand_idx := by
  cases hb : s.blocks p with
  | none =>
    rw [remove_block_absent_eq s p u hb] at hs
    cases hs
    exact ⟨rfl, rfl, rfl, rfl, rfl, rfl⟩
  | some b =>
    have h : (s.blocks p).isSome := by rw [hb]; rfl
    have hc := remove_block_success_mem s p u s' h hs
    rw [remove_block_present_eq s p u h hc] at hs
    cases hs
    cases u with
    | false => exact ⟨rfl, rfl, rfl, rfl, rfl, rfl⟩
    | true =>
      simp only [if_pos]
      obtain ⟨_, _, f3, f4, f5, f6, f7, f8⟩ :=
        redraw_neighbors_frame (undraw_if_drawn (removed_core s p) p) p
      unfold undraw_if_drawn at *
      by_cases hd : (removed_core s p).drawn_blocks p
      · rw [if_pos hd] at *
        exact ⟨f3, f4, f5, f6, f7, f8⟩
      · rw [if_neg hd] at *
        exact ⟨f3, f4, f5, f6, f7, f8⟩

theorem add_block_frame (s : WState) (p : Pos) (b : BlockType) (u : Bool)
    (s' : WState) (hs : add_block s p b u = some s') :
    s'.chunks_generated = s.chunks_generated ∧ s'.current_chunk = s.current_chunk
    ∧ s'.rand_seq = s.rand_seq ∧ s'.rand_idx = s.rand_idx := by
  unfold add_block at hs
  rcases Option.bind_eq_some.mp hs with ⟨sr, h1, h2⟩
  have hr : sr.chunks_generated = s.chunks_generated ∧ sr.current_chunk = s.current_chunk
      ∧ sr.rand_seq = s.rand_seq ∧ sr.rand_idx = s.rand_idx := by
    by_cases hb : (s.blocks p).isSome
    · rw [if_pos hb] at h1
      obtain ⟨g1, g2, _, _, g5, g6⟩ := remove_block_frame s p true sr h1
      exact ⟨g1, g2, g5, g6⟩
    · rw [if_neg hb] at h1
      cases h1
      exact ⟨rfl, rfl, rfl, rfl⟩
  dsimp only at h2
  cases u with
  | false =>
    simp only [Bool.false_eq_true, if_false, Option.some.injEq] at h2
    cases h2
    exact hr
  | true =>
    simp only [if_pos] at h2
    rcases Option.bind_eq_some.mp h2 with ⟨s2, h3, h4⟩
    have h2' : s2.chunks_generated = sr.chunks_generated
        ∧ s2.current_chunk = sr.current_chunk
        ∧ s2.rand_seq = sr.rand_seq ∧ s2.rand_idx = sr.rand_idx := by
      by_cases he : exposed (inserted sr p b) p
      · rw [if_pos he] at h3
        obtain ⟨_, _, g3, g4, _, _, g7, g8⟩ := draw_block_true_frame h3
        exact ⟨g3, g4, g7, g8⟩
      · rw [if_neg he] at h3
        cases h3
        exact ⟨rfl, rfl, rfl, rfl⟩
    simp only [Option.some.injEq] at h4
    cases h4
    obtain ⟨_, _, r3, r4, _, _, r7, r8⟩ := redraw_neighbors_frame s2 p
    exact ⟨r3.trans (h2'.1.trans hr.1), r4.trans (h2'.2.1.trans hr.2.1),
           r7.trans (h2'.2.2.1.trans hr.2.2.1), r8.trans (h2'.2.2.2.trans hr.2.2.2)⟩

/-- A concrete random stream for example states. -/
def exampleSeq : Nat → Nat := fun _ => 0

/-- A freshly constructed world used by concrete instances. -/
def st0 : WState := initState exampleSeq

/-- C9: `clear` (`remove_block`) on an absent position is a no-op, not an
error: it returns the state unchanged (blocks, chunk index, drawn set, both
queues and all other fields included, because it literally returns `self`
untouched); and after any completed `remove_block(p)` the integer position `p`
is absent from `blocks`, so `occupied(p)` is false regardless of prior
state. -/
theorem remove_block_absent_noop_and_clears :
    (∀ (s : WState) (p : Pos) (u : Bool),
        s.blocks p = none → remove_block s p u = some s)
    ∧ (∀ (s : WState) (p : Pos) (u : Bool) (s' : WState),
        remove_block s p u = some s' →
          s'.blocks p = none
          ∧ occupied s' ((p.1 : ℚ), (p.2.1 : ℚ), (p.2.2 : ℚ)) = false) := by
  constructor
  · exact fun s p u h => remove_block_absent_eq s p u h
  · intro s p u s' hs
    have hb := remove_block_blocks_self s p u s' hs
    refine ⟨hb, ?_⟩
    unfold occupied
    rw [discretize_intCast, hb]
    rfl

/-- Witness for C9: in the fresh world, `(0,0,0)` is absent, removing it
returns the state unchanged, and afterwards the position is still unoccupied. -/
theorem remove_block_absent_noop_and_clears_witness :
    st0.blocks (0, 0, 0) = none
    ∧ remove_block st0 (0, 0, 0) true = some st0
    ∧ occupied st0 ((0 : ℚ), (0 : ℚ), (0 : ℚ)) = false :=
  ⟨rfl, remove_block_absent_noop_and_clears.1 st0 (0, 0, 0) true rfl,
   (remove_block_absent_noop_and_clears.2 st0 (0, 0, 0) true st0
      (remove_block_absent_noop_and_clears.1 st0 (0, 0, 0) true rfl)).2⟩

theorem generate_chunk_column_cg (s : WState) (x z : Int) (sm : ℚ) (mh : Nat)
    (s' : WState) (h : generate_chunk_column s x z sm mh = some s') :
    s'.chunks_generated = s.chunks_generated := by
  unfold generate_chunk_column at h
  exact foldlM_option_preserve (fun st => st.chunks_generated = s.chunks_generated)
    _ (fun st a st' hP hf => ((add_block_frame st _ _ _ st' hf).1).trans hP)
    _ s s' rfl h

/-- C5: `generate_chunk` is idempotent.  If the chunk is already in
`chunks_generated`, the call is a no-op returning the state unchanged; and
after any successful `generate_chunk(c)`, a second call (with either urgency)
changes nothing, so calling it twice yields exactly the state of calling it
once. -/
theorem generate_chunk_idempotent :
    (∀ (s : WState) (c : Pos) (u : Bool),
        s.chunks_generated c = true → generate_chunk s c u = some s)
    ∧ (∀ (s : WState) (c : Pos) (u u' : Bool) (s' : WState),
        generate_chunk s c u = some s' → generate_chunk s' c u' = some s') := by
  have noop : ∀ (s : WState) (c : Pos) (u : Bool),
      s.chunks_generated c = true → generate_chunk s c u = some s := by
    intro s c u h
    unfold generate_chunk
    rw [if_pos h]
  have marks : ∀ (s : WState) (c : Pos) (u : Bool) (s' : WState),
      generate_chunk s c u = some s' → s'.chunks_generated c = true := by
    intro s c u s' hs
    unfold generate_chunk at hs
    by_cases hg : s.chunks_generated c
    · rw [if_pos hg] at hs
      cases hs
      exact hg
    · rw [if_neg hg] at hs
      dsimp only [randint_20_30] at hs
      cases u with
      | false =>
        simp only [Bool.false_eq_true, if_false, Option.some.injEq] at hs
        cases hs
        simp [updFun]
      | true =>
        simp only [if_pos] at hs
        have := foldlM_option_preserve (fun st => st.chunks_generated c = true)
          _ (fun st a st' hP hf => by
              show st'.chunks_generated c = true
              rw [(generate_chunk_column_cg st a.1 a.2 _ _ st' hf)]
              exact hP)
          (chunk_columns c) _ s' (by simp [updFun]) hs
        exact this
  exact ⟨noop, fun s c u u' s' hs => noop s' c u' (marks s c u s' hs)⟩

/-- A world whose chunk `(0,0,0)` is already recorded as generated. -/
def st_gen : WState :=
  { st0 with chunks_generated := updFun st0.chunks_generated (0, 0, 0) true }

/-- Witness for C5: with chunk `(0,0,0)` already generated, `generate_chunk`
returns the state unchanged, and repeating the call is again a no-op. -/
theorem generate_chunk_idempotent_witness :
    st_gen.chunks_generated (0, 0, 0) = true
    ∧ generate_chunk st_gen (0, 0, 0) false = some st_gen :=
  ⟨rfl, generate_chunk_idempotent.2 st_gen (0, 0, 0) false false st_gen
    (generate_chunk_idempotent.1 st_gen (0, 0, 0) false rfl)⟩

/-- The DrawnSet ⊆ keys(blocks) invariant: every drawn position holds a block. -/
def InvDrawn (s : WState) : Prop :=
  ∀ q : Pos, s.drawn_blocks q = true → (s.blocks q).isSome

/-- Generic preservation of a predicate along a plain fold. -/
theorem foldl_preserve {α : Type} (P : WState → Prop) (f : WState → α → WState)
    (hf : ∀ st a, P st → P (f st a)) :
    ∀ (l : List α) (st : WState), P st → P (l.foldl f st) := by
  intro l
  induction l with
  | nil => intro st h; exact h
  | cons a l ih => intro st h; exact ih (f st a) (hf st a h)

theorem draw_block_preserves_inv (s : WState) (p : Pos) (u : Bool) (s' : WState)
    (hs : draw_block s p u = some s') (hI : InvDrawn s) : InvDrawn s' := by
  unfold draw_block at hs
  cases hb : s.blocks p with
  | none => rw [hb] at hs; cases hs
  | some b =>
    rw [hb] at hs
    have core : ∀ q, (updFun s.drawn_blocks p true) q = true → (s.blocks q).isSome := by
      intro q hq
      by_cases hqp : q = p
      · subst hqp; rw [hb]; rfl
      · rw [updFun, if_neg hqp] at hq
        exact hI q hq
    cases u with
    | true => simp only [if_pos, Option.some.injEq] at hs; cases hs; exact core
    | false =>
      simp only [Bool.false_eq_true, if_false, Option.some.injEq] at hs
      cases hs
      exact core

theorem undraw_block_preserves_inv (s : WState) (p : Pos) (u : Bool) (s' : WState)
    (hs : undraw_block s p u = some s') (hI : InvDrawn s) : InvDrawn s' := by
  unfold undraw_block at hs
  by_cases hd : s.drawn_blocks p
  · rw [if_pos hd] at hs
    have core : ∀ q, (updFun s.drawn_blocks p false) q = true → (s.blocks q).isSome := by
      intro q hq
      by_cases hqp : q = p
      · subst hqp; rw [updFun, if_pos rfl] at hq; cases hq
      · rw [updFun, if_neg hqp] at hq
        exact hI q hq
    cases u with
    | true => simp only [if_pos, Option.some.injEq] at hs; cases hs; exact core
    | false =>
      simp only [Bool.false_eq_true, if_false, Option.some.injEq] at hs
      cases hs
      exact core
  · rw [if_neg hd] at hs
    cases hs

theorem redraw_step_preserves_inv (s : WState) (n : Pos) (hI : InvDrawn s) :
    InvDrawn (redraw_step s n) := by
  unfold redraw_step
  by_cases h1 : (s.blocks n).isSome
  · rw [if_pos h1]
    by_cases hd : s.drawn_blocks n
    · rw [if_pos hd]
      by_cases he : exposed s n
      · rw [if_pos he]; exact hI
      · rw [if_neg he, undraw_block_true_eq s n hd, Option.getD_some]
        exact undraw_block_preserves_inv s n true _ (undraw_block_true_eq s n hd) hI
    · rw [if_neg hd]
      by_cases he : exposed s n
      · rw [if_pos he, draw_block_true_eq s n h1, Option.getD_some]
        exact draw_block_preserves_inv s n true _ (draw_block_true_eq s n h1) hI
      · rw [if_neg he]; exact hI
  · rw [if_neg h1]; exact hI

theorem redraw_neighbors_preserves_inv (s : WState) (p : Pos) (hI : InvDrawn s) :
    InvDrawn (redraw_neighbors s p) :=
  foldl_preserve InvDrawn redraw_step redraw_step_preserves_inv (neighbors p) s hI

theorem remove_block_true_preserves_inv (s : WState) (p : Pos) (s' : WState)
    (hs : remove_block s p true = some s') (hI : InvDrawn s) : InvDrawn s' := by
  cases hb : s.blocks p with
  | none =>
    rw [remove_block_absent_eq s p true hb] at hs
    cases hs
    exact hI
  | some b =>
    have h : (s.blocks p).isSome := by rw [hb]; rfl
    have hc := remove_block_success_mem s p true s' h hs
    rw [remove_block_present_eq s p true h hc] at hs
    simp only [if_pos, Option.some.injEq] at hs
    cases hs
    apply redraw_neighbors_preserves_inv
    intro q hq
    unfold undraw_if_drawn at hq ⊢
    by_cases hd : (removed_core s p).drawn_blocks p
    · rw [if_pos hd] at hq ⊢
      by_cases hqp : q = p
      · subst hqp
        simp only [updFun, if_pos rfl] at hq
        cases hq
      · simp only [updFun, if_neg hqp] at hq
        show ((removed_core s p).blocks q).isSome
        have : (removed_core s p).drawn_blocks q = true := hq
        simp only [removed_core, updFun, if_neg hqp]
        exact hI q hq
    · rw [if_neg hd] at hq ⊢
      by_cases hqp : q = p
      · subst hqp
        exact absurd hq hd
      · show ((removed_core s p).blocks q).isSome
        simp only [removed_core, updFun, if_neg hqp]
        exact hI q hq

theorem inserted_preserves_inv (s : WState) (p : Pos) (b : BlockType)
    (hI : InvDrawn s) : InvDrawn (inserted s p b) := by
  intro q hq
  have : s.drawn_blocks q = true := hq
  simp only [inserted, updFun]
  by_cases hqp : q = p
  · rw [if_pos hqp]; rfl
  · rw [if_neg hqp]
    exact hI q this

theorem add_block_preserves_inv (s : WState) (p : Pos) (b : BlockType) (u : Bool)
    (s' : WState) (hs : add_block s p b u = some s') (hI : InvDrawn s) : InvDrawn s' := by
  unfold add_block at hs
  rcases Option.bind_eq_some.mp hs with ⟨sr, h1, h2⟩
  have hIr : InvDrawn sr := by
    by_cases hb : (s.blocks p).isSome
    · rw [if_pos hb] at h1
      exact remove_block_true_preserves_inv s p sr h1 hI
    · rw [if_neg hb] at h1
      cases h1
      exact hI
  have hIi : InvDrawn (inserted sr p b) := inserted_preserves_inv sr p b hIr
  dsimp only at h2
  cases u with
  | false =>
    simp only [Bool.false_eq_true, if_false, Option.some.injEq] at h2
    cases h2
    exact hIi
  | true =>
    simp only [if_pos] at h2
    rcases Option.bind_eq_some.mp h2 with ⟨s2, h3, h4⟩
    have hI2 : InvDrawn s2 := by
      by_cases he : exposed (inserted sr p b) p
      · rw [if_pos he] at h3
        exact draw_block_preserves_inv _ p true s2 h3 hIi
      · rw [if_neg he] at h3
        cases h3
        exact hIi
    simp only [Option.some.injEq] at h4
    cases h4
    exact redraw_neighbors_preserves_inv s2 p hI2

theorem generate_chunk_column_preserves_inv (s : WState) (x z : Int) (sm : ℚ)
    (mh : Nat) (s' : WState) (hs : generate_chunk_column s x z sm mh = some s')
    (hI : InvDrawn s) : InvDrawn s' := by
  unfold generate_chunk_column at hs
  exact foldlM_option_preserve InvDrawn _
    (fun st a st' hP hf => add_block_preserves_inv st _ _ _ st' hf hP)
    _ s s' hI hs

theorem generate_chunk_preserves_inv (s : WState) (c : Pos) (u : Bool)
    (s' : WState) (hs : generate_chunk s c u = some s') (hI : InvDrawn s) :
    InvDrawn s' := by
  unfold generate_chunk at hs
  by_cases hg : s.chunks_generated c
  · rw [if_pos hg] at hs
    cases hs
    exact hI
  · rw [if_neg hg] at hs
    dsimp only [randint_20_30] at hs
    have hIm : InvDrawn { s with
        chunks_generated := updFun s.chunks_generated c true, rand_idx := s.rand_idx + 1 } :=
      fun q hq => hI q hq
    cases u with
    | false =>
      simp only [Bool.false_eq_true, if_false, Option.some.injEq] at hs
      cases hs
      exact fun q hq => hI q hq
    | true =>
      simp only [if_pos] at hs
      exact foldlM_option_preserve InvDrawn _
        (fun st a st' hP hf => generate_chunk_column_preserves_inv st a.1 a.2 _ _ st' hf hP)
        (chunk_columns c) _ s' hIm hs

theorem draw_chunk_preserves_inv (s : WState) (c : Pos) (s' : WState)
    (hs : draw_chunk s c = some s') (hI : InvDrawn s) : InvDrawn s' := by
  unfold draw_chunk at hs
  rcases Option.bind_eq_some.mp hs with ⟨s1, h1, h2⟩
  have hI1 := generate_chunk_preserves_inv s c true s1 h1 hI
  refine foldlM_option_preserve InvDrawn _ ?_ _ s1 s' hI1 h2
  intro st a st' hP hf
  by_cases hcond : ¬ st.drawn_blocks a ∧ exposed st a
  · rw [if_pos hcond] at hf
    exact draw_block_preserves_inv st a false st' hf hP
  · rw [if_neg hcond] at hf
    cases hf
    exact hP

theorem undraw_chunk_preserves_inv (s : WState) (c : Pos) (s' : WState)
    (hs : undraw_chunk s c = some s') (hI : InvDrawn s) : InvDrawn s' := by
  unfold undraw_chunk at hs
  refine foldlM_option_preserve InvDrawn _ ?_ _ s s' hI hs
  intro st a st' hP hf
  by_cases hcond : st.drawn_blocks a
  · rw [if_pos hcond] at hf
    exact undraw_block_preserves_inv st a false st' hf hP
  · rw [if_neg hcond] at hf
    cases hf
    exact hP

theorem run_item_preserves_inv (s : WState) (it : WorkItem) (s' : WState)
    (hs : run_item s it = some s') (hI : InvDrawn s) : InvDrawn s' := by
  cases it with
  | drawGL p => cases hs; exact hI
  | undrawGL p => cases hs; exact hI
  | genChunk c => exact generate_chunk_preserves_inv s c false s' hs hI
  | genColumn x z sm mh => exact generate_chunk_column_preserves_inv s x z sm mh s' hs hI

theorem update_round_preserves_inv (s : WState) (s' : WState)
    (t : List (QTag × WorkItem)) (e : Bool)
    (hs : update_round s = some (s', t, e)) (hI : InvDrawn s) : InvDrawn s' := by
  unfold update_round at hs
  cases hdq : s.drawing_queue with
  | nil =>
    rw [hdq] at hs
    cases hgq : s.generation_queue with
    | nil =>
      rw [hgq] at hs
      simp only [Option.some.injEq, Prod.mk.injEq] at hs
      exact hs.1 ▸ hI
    | cons it rest =>
      rw [hgq] at hs
      rcases Option.bind_eq_some.mp hs with ⟨s1, h1, h2⟩
      simp only [Option.some.injEq, Prod.mk.injEq] at h2
      have := run_item_preserves_inv _ it s1 h1 (fun q hq => hI q hq)
      exact h2.1 ▸ this
  | cons it rest =>
    rw [hdq] at hs
    rcases Option.bind_eq_some.mp hs with ⟨s1, h1, h2⟩
    have hI1 := run_item_preserves_inv _ it s1 h1 (fun q hq => hI q hq)
    cases hgq : s1.generation_queue with
    | nil =>
      rw [hgq] at h2
      simp only [Option.some.injEq, Prod.mk.injEq] at h2
      exact h2.1 ▸ hI1
    | cons it2 rest2 =>
      rw [hgq] at h2
      rcases Option.bind_eq_some.mp h2 with ⟨s2, h3, h4⟩
      simp only [Option.some.injEq, Prod.mk.injEq] at h4
      have := run_item_preserves_inv _ it2 s2 h3 (fun q hq => hI1 q hq)
      exact h4.1 ▸ this

theorem update_preserves_inv (fuel : Nat) (s : WState) (s' : WState)
    (t : List (QTag × WorkItem)) (hs : update fuel s = some (s', t))
    (hI : InvDrawn s) : InvDrawn s' := by
  induction fuel generalizing s t with
  | zero =>
    simp only [update, Option.some.injEq, Prod.mk.injEq] at hs
    exact hs.1 ▸ hI
  | succ fuel ih =>
    unfold update at hs
    rcases Option.bind_eq_some.mp hs with ⟨r, h1, h2⟩
    obtain ⟨s1, t1, e⟩ := r
    have hI1 := update_round_preserves_inv s s1 t1 e h1 hI
    dsimp only at h2
    cases e with
    | true =>
      simp only [if_pos, Option.some.injEq, Prod.mk.injEq] at h2
      exact h2.1 ▸ hI1
    | false =>
      simp only [Bool.false_eq_true, if_false] at h2
      rcases Option.bind_eq_some.mp h2 with ⟨r2, h3, h4⟩
      simp only [Option.some.injEq, Prod.mk.injEq] at h4
      exact ih s1 r2.2 (h3.trans (by rw [← h4.1])) hI1

/-- C3, amended: every core operation preserves DrawnSet ⊆ keys(blocks) —
`add_block` with either urgency, `remove_block` with `urgent=True` (the only
urgency the repository ever uses for it), `draw_block` and `undraw_block` with
either urgency, chunk draw/undraw, chunk generation with either urgency, and
queue draining.  (`remove_block` with `urgent=False` is the exception, see the
counterexample.) -/
theorem core_ops_preserve_drawn_subset_blocks :
    (∀ (s : WState) (p : Pos) (b : BlockType) (u : Bool) (s' : WState),
        InvDrawn s → add_block s p b u = some s' → InvDrawn s')
    ∧ (∀ (s : WState) (p : Pos) (s' : WState),
        InvDrawn s → remove_block s p true = some s' → InvDrawn s')
    ∧ (∀ (s : WState) (p : Pos) (u : Bool) (s' : WState),
        InvDrawn s → draw_block s p u = some s' → InvDrawn s')
    ∧ (∀ (s : WState) (p : Pos) (u : Bool) (s' : WState),
        InvDrawn s → undraw_block s p u = some s' → InvDrawn s')
    ∧ (∀ (s : WState) (c : Pos) (s' : WState),
        InvDrawn s → draw_chunk s c = some s' → InvDrawn s')
    ∧ (∀ (s : WState) (c : Pos) (s' : WState),
        InvDrawn s → undraw_chunk s c = some s' → InvDrawn s')
    ∧ (∀ (s : WState) (c : Pos) (u : Bool) (s' : WState),
        InvDrawn s → generate_chunk s c u = some s' → InvDrawn s')
    ∧ (∀ (fuel : Nat) (s : WState) (s' : WState) (t : List (QTag × WorkItem)),
        InvDrawn s → update fuel s = some (s', t) → InvDrawn s') :=
  ⟨fun s p b u s' hI hs => add_block_preserves_inv s p b u s' hs hI,
   fun s p s' hI hs => remove_block_true_preserves_inv s p s' hs hI,
   fun s p u s' hI hs => draw_block_preserves_inv s p u s' hs hI,
   fun s p u s' hI hs => undraw_block_preserves_inv s p u s' hs hI,
   fun s c s' hI hs => draw_chunk_preserves_inv s c s' hs hI,
   fun s c s' hI hs => undraw_chunk_preserves_inv s c s' hs hI,
   fun s c u s' hI hs => generate_chunk_preserves_inv s c u s' hs hI,
   fun fuel s s' t hI hs => update_preserves_inv fuel s s' t hs hI⟩

/-- The world after urgently placing a grass block at the origin of a fresh
world: the block is exposed and therefore drawn. -/
def c3s1 : WState := (add_block st0 (0, 0, 0) .grass true).getD st0

/-- The world after non-urgently removing that block: it leaves `drawn_blocks`
untouched. -/
def c3s2 : WState := (remove_block c3s1 (0, 0, 0) false).getD st0

/-- A successful `Option` computation equals `some` of its `getD`-extracted
value (used to feed concrete operation results to the theorems). -/
theorem eq_some_getD {o : Option WState} (d : WState) (h : o.isSome = true) :
    o = some (o.getD d) := by
  cases o with
  | none => cases h
  | some v => rfl

/-- C3, counterexample to the claim as stated: `remove_block` with
`urgent=False` deletes the block from `blocks` (and the chunk index) but skips
the undraw, leaving the removed position inside `drawn_blocks` — so DrawnSet ⊆
keys(blocks) is broken by that operation. -/
theorem remove_block_nonurgent_breaks_drawn_invariant :
    (add_block st0 (0, 0, 0) BlockType.grass true).isSome = true
    ∧ c3s1.drawn_blocks (0, 0, 0) = true
    ∧ (remove_block c3s1 (0, 0, 0) false).isSome = true
    ∧ c3s2.drawn_blocks (0, 0, 0) = true
    ∧ c3s2.blocks (0, 0, 0) = none := by
  refine ⟨by decide, by decide, by decide, by decide, by decide⟩

/-- Witness for C3: the invariant holds in the fresh world and is preserved
through an urgent placement. -/
theorem core_ops_preserve_drawn_subset_blocks_witness :
    InvDrawn st0 ∧ InvDrawn c3s1 :=
  ⟨fun _ h => Bool.noConfusion h,
   core_ops_preserve_drawn_subset_blocks.1 st0 (0, 0, 0) .grass true c3s1
     (fun _ h => Bool.noConfusion h) (eq_some_getD st0 (by decide))⟩

theorem add_block_true_shape (s : WState) (p : Pos) (b : BlockType) (s' : WState)
    (hs : add_block s p b true = some s') : ∃ s₃, s' = redraw_neighbors s₃ p := by
  unfold add_block at hs
  rcases Option.bind_eq_some.mp hs with ⟨sr, h1, h2⟩
  dsimp only at h2
  simp only [if_pos] at h2
  rcases Option.bind_eq_some.mp h2 with ⟨s2, h3, h4⟩
  simp only [Option.some.injEq] at h4
  exact ⟨s2, h4.symm⟩

theorem remove_block_true_shape (s : WState) (p : Pos) (s' : WState)
    (hocc : (s.blocks p).isSome) (hs : remove_block s p true = some s') :
    ∃ s₃, s' = redraw_neighbors s₃ p := by
  have hc := remove_block_success_mem s p true s' hocc hs
  rw [remove_block_present_eq s p true hocc hc] at hs
  simp only [if_pos, Option.some.injEq] at hs
  exact ⟨undraw_if_drawn (removed_core s p) p, hs.symm⟩

theorem redraw_reconciles (s₃ : WState) (p n : Pos) (hn : n ∈ neighbors p)
    (hocc : ((redraw_neighbors s₃ p).blocks n).isSome) :
    (redraw_neighbors s₃ p).drawn_blocks n = exposed (redraw_neighbors s₃ p) n := by
  have hb := (redraw_neighbors_frame s₃ p).1
  rw [exposed_congr hb n, redraw_neighbors_drawn_occupied s₃ p n hn (hb ▸ hocc)]

/-- C2, amended: neighbor reconciliation runs only on **urgent** calls.  After
`add_block(p, b, urgent=True)`, and after `remove_block(p, urgent=True)` on an
occupied position, every occupied neighbor of `p` ends with its draw-state
equal to its exposure: a drawn neighbor that is no longer exposed has been
unmarked, an undrawn neighbor that is now exposed has been marked (the
neighbor draws/undraws themselves always execute immediately, since
`redraw_neighbors` calls them with the default `urgent=True`).  With
`urgent=False` no reconciliation happens at all — see the counterexample. -/
theorem urgent_place_clear_reconcile_neighbors :
    (∀ (s : WState) (p : Pos) (b : BlockType) (s' : WState),
        add_block s p b true = some s' →
          ∀ n ∈ neighbors p, (s'.blocks n).isSome →
            s'.drawn_blocks n = exposed s' n)
    ∧ (∀ (s : WState) (p : Pos) (s' : WState),
        (s.blocks p).isSome → remove_block s p true = some s' →
          ∀ n ∈ neighbors p, (s'.blocks n).isSome →
            s'.drawn_blocks n = exposed s' n) := by
  constructor
  · intro s p b s' hs n hn hocc
    obtain ⟨s₃, rfl⟩ := add_block_true_shape s p b s' hs
    exact redraw_reconciles s₃ p n hn hocc
  · intro s p s' hp hs n hn hocc
    obtain ⟨s₃, rfl⟩ := remove_block_true_shape s p s' hp hs
    exact redraw_reconciles s₃ p n hn hocc

/-- Fresh world with a grass block at `(1,0,0)` (urgently placed). -/
def c2w1 : WState := (add_block st0 (1, 0, 0) .grass true).getD st0

/-- …then another urgently placed at `(0,0,0)`. -/
def c2w2 : WState := (add_block c2w1 (0, 0, 0) .grass true).getD st0

/-- Witness for C2: after urgently placing `(0,0,0)` next to the block at
`(1,0,0)`, that occupied neighbor's draw-state equals its exposure. -/
theorem urgent_place_clear_reconcile_neighbors_witness :
    (c2w2.blocks (1, 0, 0)).isSome = true
    ∧ c2w2.drawn_blocks (1, 0, 0) = exposed c2w2 (1, 0, 0) :=
  ⟨by decide,
   urgent_place_clear_reconcile_neighbors.1 c2w1 (0, 0, 0) .grass c2w2
     (eq_some_getD st0 (by decide)) (1, 0, 0) (by decide) (by decide)⟩

/-- A world in which `(0,0,0)` is occupied and drawn and all its neighbors
except `(1,0,0)` are occupied: five urgent placements around the origin, then
the origin itself. -/
def c2pre : WState :=
  ((add_block st0 (-1, 0, 0) .grass true).bind fun s =>
   (add_block s (0, -1, 0) .grass true).bind fun s =>
   (add_block s (0, 1, 0) .grass true).bind fun s =>
   (add_block s (0, 0, -1) .grass true).bind fun s =>
   (add_block s (0, 0, 1) .grass true).bind fun s =>
    add_block s (0, 0, 0) .grass true).getD st0

/-- The same world after non-urgently placing `(1,0,0)`. -/
def c2post : WState := (add_block c2pre (1, 0, 0) .grass false).getD st0

/-- C2, counterexample to the claim as stated: placing `(1,0,0)` with
`urgent=False` runs no reconciliation, so the neighbor `(0,0,0)` — occupied,
drawn, and no longer exposed once `(1,0,0)` fills its last empty face — stays
marked for drawing. -/
theorem add_block_nonurgent_skips_reconciliation :
    (add_block c2pre (1, 0, 0) BlockType.grass false).isSome = true
    ∧ (c2post.blocks (0, 0, 0)).isSome = true
    ∧ c2post.drawn_blocks (0, 0, 0) = true
    ∧ exposed c2post (0, 0, 0) = false := by
  refine ⟨by decide, by decide, by decide, by decide⟩

theorem draw_if_exposed_blocks (s : WState) (p : Pos) :
    (draw_if_exposed s p).blocks = s.blocks := by
  unfold draw_if_exposed
  by_cases he : exposed s p
  · rw [if_pos he]
  · rw [if_neg he]

theorem draw_if_exposed_chunks (s : WState) (p : Pos) :
    (draw_if_exposed s p).chunks = s.chunks := by
  unfold draw_if_exposed
  by_cases he : exposed s p
  · rw [if_pos he]
  · rw [if_neg he]

theorem draw_if_exposed_drawn_other (s : WState) (p q : Pos) (h : q ≠ p) :
    (draw_if_exposed s p).drawn_blocks q = s.drawn_blocks q := by
  unfold draw_if_exposed
  by_cases he : exposed s p
  · rw [if_pos he]
    simp only [updFun, if_neg h]
  · rw [if_neg he]

theorem undraw_if_drawn_blocks (s : WState) (p : Pos) :
    (undraw_if_drawn s p).blocks = s.blocks := by
  unfold undraw_if_drawn
  by_cases hd : s.drawn_blocks p
  · rw [if_pos hd]
  · rw [if_neg hd]

theorem undraw_if_drawn_drawn_other (s : WState) (p q : Pos) (h : q ≠ p) :
    (undraw_if_drawn s p).drawn_blocks q = s.drawn_blocks q := by
  unfold undraw_if_drawn
  by_cases hd : s.drawn_blocks p
  · rw [if_pos hd]
    simp only [updFun, if_neg h]
  · rw [if_neg hd]

/-- C4, amended: starting from a state where `p` is unoccupied and every
occupied neighbor of `p` has its draw-state reconciled with its exposure (as
urgent operations leave them, see C2), `place(p, b)` followed by `clear(p)`
(both with their default `urgent=True`) restores each of `p`'s six neighbors'
occupancy and draw-state.  Without the reconciliation hypothesis the claim
fails on reachable states — see the counterexample. -/
theorem place_then_clear_restores_neighbors
    (s : WState) (p : Pos) (b : BlockType) (s1 s2 : WState)
    (hfree : s.blocks p = none)
    (hrec : ∀ n ∈ neighbors p, (s.blocks n).isSome → s.drawn_blocks n = exposed s n)
    (h1 : add_block s p b true = some s1)
    (h2 : remove_block s1 p true = some s2) :
    ∀ n ∈ neighbors p,
      s2.blocks n = s.blocks n ∧ s2.drawn_blocks n = s.drawn_blocks n := by
  rw [add_block_eq_free s p b true hfree] at h1
  simp only [if_pos, Option.some.injEq] at h1
  have hs1 : s1 = redraw_neighbors (draw_if_exposed (inserted s p b) p) p := h1.symm
  have hs1blocks : s1.blocks = updFun s.blocks p (some b) := by
    rw [hs1, (redraw_neighbors_frame _ p).1, draw_if_exposed_blocks]
    rfl
  have hocc1 : (s1.blocks p).isSome := by
    rw [hs1blocks]
    simp [updFun]
  have hs1chunks : s1.chunks = updFun s.chunks (chunk_position p)
      (s.chunks (chunk_position p) ++ [p]) := by
    rw [hs1, (redraw_neighbors_frame _ p).2.1, draw_if_exposed_chunks]
    rfl
  have hc1 : p ∈ s1.chunks (chunk_position p) := by
    rw [hs1chunks]
    simp [updFun]
  rw [remove_block_present_eq s1 p true hocc1 hc1] at h2
  simp only [if_pos, Option.some.injEq] at h2
  have hs2 : s2 = redraw_neighbors (undraw_if_drawn (removed_core s1 p) p) p := h2.symm
  have hs2blocks : s2.blocks = updFun s1.blocks p none := by
    rw [hs2, (redraw_neighbors_frame _ p).1, undraw_if_drawn_blocks]
    rfl
  have hpoint : ∀ q, s2.blocks q = s.blocks q := by
    intro q
    rw [hs2blocks]
    by_cases hq : q = p
    · subst hq
      rw [updFun, if_pos rfl, hfree]
    · rw [updFun, if_neg hq, hs1blocks, updFun, if_neg hq]
  have hblocks_eq : s2.blocks = s.blocks := funext hpoint
  have hUblocks : (undraw_if_drawn (removed_core s1 p) p).blocks = s.blocks := by
    rw [undraw_if_drawn_blocks]
    have : (removed_core s1 p).blocks = s2.blocks := by
      rw [hs2, (redraw_neighbors_frame _ p).1, undraw_if_drawn_blocks]
    rw [this, hblocks_eq]
  intro n hn
  have hnp : n ≠ p := mem_neighbors_ne p n hn
  refine ⟨hpoint n, ?_⟩
  by_cases hocc : (s.blocks n).isSome
  · have hUocc : ((undraw_if_drawn (removed_core s1 p) p).blocks n).isSome := by
      rw [hUblocks]
      exact hocc
    have hdrawn : s2.drawn_blocks n = exposed (undraw_if_drawn (removed_core s1 p) p) n := by
      rw [hs2]
      exact redraw_neighbors_drawn_occupied _ p n hn hUocc
    rw [hdrawn, exposed_congr hUblocks n]
    exact (hrec n hn hocc).symm
  · have hnone : s.blocks n = none := Option.not_isSome_iff_eq_none.mp hocc
    have hAnone : (inserted s p b).blocks n = none := by
      simp only [inserted, updFun, if_neg hnp]
      exact hnone
    have e1 : s1.drawn_blocks n = s.drawn_blocks n := by
      rw [hs1, redraw_neighbors_drawn_unoccupied _ p n
            (by rw [draw_if_exposed_blocks]; exact hAnone),
          draw_if_exposed_drawn_other _ p n hnp]
      rfl
    have hUnone : (undraw_if_drawn (removed_core s1 p) p).blocks n = none := by
      rw [hUblocks]
      exact hnone
    have e2 : s2.drawn_blocks n = s1.drawn_blocks n := by
      rw [hs2, redraw_neighbors_drawn_unoccupied _ p n hUnone,
          undraw_if_drawn_drawn_other _ p n hnp]
      rfl
    rw [e2, e1]

/-- World states reachable from a fresh `World()` through the public entry
points (place/clear with either urgency — the non-urgent mode is what
generation uses internally — chunk generation, chunk streaming, and queue
draining). -/
inductive Reachable : WState → Prop where
  | init (seq : Nat → Nat) : Reachable (initState seq)
  | place {s s' : WState} (p : Pos) (b : BlockType) (u : Bool) :
      Reachable s → add_block s p b u = some s' → Reachable s'
  | clear {s s' : WState} (p : Pos) (u : Bool) :
      Reachable s → remove_block s p u = some s' → Reachable s'
  | gen {s s' : WState} (c : Pos) (u : Bool) :
      Reachable s → generate_chunk s c u = some s' → Reachable s'
  | load {s s' : WState} (q : QPos) :
      Reachable s → load_chunks s q = some s' → Reachable s'
  | tick {s s' : WState} (fuel : Nat) (t : List (QTag × WorkItem)) :
      Reachable s → update fuel s = some (s', t) → Reachable s'

/-- A reachable world with an undrawn (non-urgently generated-style) block at
`(1,0,0)`. -/
def c4sa : WState := (add_block st0 (1, 0, 0) .grass false).getD st0

/-- …after urgently placing `(0,0,0)` (which draws the neighbor `(1,0,0)`). -/
def c4s1 : WState := (add_block c4sa (0, 0, 0) .grass true).getD st0

/-- …after urgently clearing `(0,0,0)` again. -/
def c4s2 : WState := (remove_block c4s1 (0, 0, 0) true).getD st0

/-- C4, counterexample to the claim as stated: in the reachable state `c4sa`
the block at `(1,0,0)` is occupied but not drawn (it was placed non-urgently,
exactly as terrain generation places blocks).  Urgently placing `(0,0,0)` and
clearing it again leaves `(1,0,0)` drawn: the round trip does not restore the
neighbor's draw-state. -/
theorem place_then_clear_not_restored_on_reachable_state :
    Reachable c4sa
    ∧ (add_block c4sa (0, 0, 0) BlockType.grass true).isSome = true
    ∧ (remove_block c4s1 (0, 0, 0) true).isSome = true
    ∧ ((c4sa.blocks (1, 0, 0)).isSome = true ∧ c4sa.drawn_blocks (1, 0, 0) = false)
    ∧ c4s2.drawn_blocks (1, 0, 0) = true :=
  ⟨Reachable.place (1, 0, 0) .grass false (Reachable.init exampleSeq)
     (eq_some_getD st0 (by decide)),
   by decide, by decide, ⟨by decide, by decide⟩, by decide⟩

/-- The fresh world after `place (0,0,0)` then `clear (0,0,0)`, used as the C4
witness instance. -/
def c4w2 : WState := (remove_block c3s1 (0, 0, 0) true).getD st0

/-- Witness for C4: in the fresh world (where `p = (0,0,0)` is unoccupied and
the reconciliation hypothesis holds vacuously), place-then-clear restores
every neighbor's occupancy and draw-state. -/
theorem place_then_clear_restores_neighbors_witness :
    st0.blocks (0, 0, 0) = none
    ∧ ∀ n ∈ neighbors (0, 0, 0),
        c4w2.blocks n = st0.blocks n ∧ c4w2.drawn_blocks n = st0.drawn_blocks n :=
  ⟨rfl,
   place_then_clear_restores_neighbors st0 (0, 0, 0) .grass c3s1 c4w2 rfl
     (by decide) (eq_some_getD st0 (by decide)) (eq_some_getD st0 (by decide))⟩

/-- The ChunkIndex invariant: an integer position appears in the collection
of exactly one chunk — the chunk `chunk_position p = (x / 16, 0, z / 16)`
(floor division) — exactly when it is a key of `blocks`, and in no other
chunk's collection. -/
def InvChunks (s : WState) : Prop :=
  ∀ p : Pos,
    (s.chunks (chunk_position p)).count p = (if (s.blocks p).isSome then 1 else 0)
    ∧ ∀ c : Pos, c ≠ chunk_position p → p ∉ s.chunks c

theorem count_removeFirst_self (x : Pos) (l : List Pos) :
    (removeFirst x l).count x = l.count x - 1 := by
  induction l with
  | nil => rfl
  | cons y ys ih =>
    rw [removeFirst]
    by_cases hy : y = x
    · rw [if_pos hy, hy, List.count_cons_self]
      omega
    · rw [if_neg hy, List.count_cons_of_ne (by exact fun h => hy h.symm),
        List.count_cons_of_ne (by exact fun h => hy h.symm), ih]

theorem count_removeFirst_ne (x q : Pos) (h : q ≠ x) (l : List Pos) :
    (removeFirst x l).count q = l.count q := by
  induction l with
  | nil => rfl
  | cons y ys ih =>
    rw [removeFirst]
    by_cases hy : y = x
    · rw [if_pos hy, List.count_cons_of_ne (by rw [hy]; exact h)]
    · rw [if_neg hy]
      by_cases hq : y = q
      · rw [hq, List.count_cons_self, List.count_cons_self, ih]
      · rw [List.count_cons_of_ne (by exact fun hh => hq hh.symm),
          List.count_cons_of_ne (by exact fun hh => hq hh.symm), ih]

theorem mem_removeFirst (x q : Pos) (l : List Pos) (h : q ∈ removeFirst x l) :
    q ∈ l := by
  induction l with
  | nil => cases h
  | cons y ys ih =>
    rw [removeFirst] at h
    by_cases hy : y = x
    · rw [if_pos hy] at h
      exact List.mem_cons_of_mem y h
    · rw [if_neg hy] at h
      rcases List.mem_cons.mp h with rfl | h'
      · exact List.mem_cons_self q ys
      · exact List.mem_cons_of_mem y (ih h')

theorem removed_core_invChunks (s : WState) (p : Pos) (h : (s.blocks p).isSome)
    (hI : InvChunks s) : InvChunks (removed_core s p) := by
  intro q
  have hIq := hI q
  have hIp := hI p
  constructor
  · show (updFun s.chunks (chunk_position p)
        (removeFirst p (s.chunks (chunk_position p))) (chunk_position q)).count q
      = (if ((updFun s.blocks p none) q).isSome then 1 else 0)
    simp only [updFun]
    by_cases hq : q = p
    · subst hq
      simp [count_removeFirst_self, hIp.1, h]
    · simp only [if_neg hq]
      by_cases hcc : chunk_position q = chunk_position p
      · simp only [if_pos hcc]
        rw [count_removeFirst_ne p q hq, ← hcc]
        exact hIq.1
      · simp only [if_neg hcc]
        exact hIq.1
  · intro c hc
    show q ∉ updFun s.chunks (chunk_position p)
        (removeFirst p (s.chunks (chunk_position p))) c
    simp only [updFun]
    by_cases hcp : c = chunk_position p
    · subst hcp
      rw [if_pos rfl]
      intro hmem
      exact hIq.2 _ hc (mem_removeFirst p q _ hmem)
    · rw [if_neg hcp]
      exact hIq.2 c hc

theorem inserted_invChunks (s : WState) (p : Pos) (b : BlockType)
    (hfree : s.blocks p = none) (hI : InvChunks s) : InvChunks (inserted s p b) := by
  intro q
  have hIq := hI q
  have hIp := hI p
  have hcount0 : (s.chunks (chunk_position p)).count p = 0 := by
    rw [hIp.1, hfree]
    rfl
  constructor
  · show (updFun s.chunks (chunk_position p)
        (s.chunks (chunk_position p) ++ [p]) (chunk_position q)).count q
      = (if ((updFun s.blocks p (some b)) q).isSome then 1 else 0)
    simp only [updFun]
    by_cases hq : q = p
    · subst hq
      simp [List.count_append, hcount0]
    · simp only [if_neg hq]
      by_cases hcc : chunk_position q = chunk_position p
      · simp only [if_pos hcc]
        rw [List.count_append]
        have h0 : ([p].count q) = 0 := by
          rw [List.count_eq_zero]
          simp only [List.mem_singleton]
          exact hq
        rw [h0, Nat.add_zero, ← hcc]
        exact hIq.1
      · simp only [if_neg hcc]
        exact hIq.1
  · intro c hc
    show q ∉ updFun s.chunks (chunk_position p)
        (s.chunks (chunk_position p) ++ [p]) c
    simp only [updFun]
    by_cases hcp : c = chunk_position p
    · subst hcp
      rw [if_pos rfl]
      intro hmem
      rcases List.mem_append.mp hmem with h1 | h1
      · exact hIq.2 _ hc h1
      · rcases List.mem_singleton.mp h1 with rfl
        exact hc rfl
    · rw [if_neg hcp]
      exact hIq.2 c hc

theorem remove_block_preserves_invChunks (s : WState) (p : Pos) (u : Bool)
    (s' : WState) (hs : remove_block s p u = some s') (hI : InvChunks s) :
    InvChunks s' := by
  cases hb : s.blocks p with
  | none =>
    rw [remove_block_absent_eq s p u hb] at hs
    cases hs
    exact hI
  | some b =>
    have h : (s.blocks p).isSome := by rw [hb]; rfl
    have hc := remove_block_success_mem s p u s' h hs
    rw [remove_block_present_eq s p u h hc] at hs
    cases hs
    have hRC := removed_core_invChunks s p h hI
    cases u with
    | false => exact hRC
    | true =>
      simp only [if_pos]
      intro q
      have hb1 : (redraw_neighbors (undraw_if_drawn (removed_core s p) p) p).blocks
          = (removed_core s p).blocks := by
        rw [(redraw_neighbors_frame _ p).1, undraw_if_drawn_blocks]
      have hc1 : (redraw_neighbors (undraw_if_drawn (removed_core s p) p) p).chunks
          = (removed_core s p).chunks := by
        rw [(redraw_neighbors_frame _ p).2.1]
        unfold undraw_if_drawn
        by_cases hd : (removed_core s p).drawn_blocks p
        · rw [if_pos hd]
        · rw [if_neg hd]
      rw [hb1, hc1]
      exact hRC q

theorem add_block_preserves_invChunks (s : WState) (p : Pos) (b : BlockType)
    (u : Bool) (s' : WState) (hs : add_block s p b u = some s') (hI : InvChunks s) :
    InvChunks s' := by
  unfold add_block at hs
  rcases Option.bind_eq_some.mp hs with ⟨sr, h1, h2⟩
  have hIr : InvChunks sr ∧ sr.blocks p = none := by
    by_cases hb : (s.blocks p).isSome
    · rw [if_pos hb] at h1
      exact ⟨remove_block_preserves_invChunks s p true sr h1 hI,
             remove_block_blocks_self s p true sr h1⟩
    · rw [if_neg hb] at h1
      cases h1
      exact ⟨hI, Option.not_isSome_iff_eq_none.mp hb⟩
  have hIi : InvChunks (inserted sr p b) := inserted_invChunks sr p b hIr.2 hIr.1
  dsimp only at h2
  cases u with
  | false =>
    simp only [Bool.false_eq_true, if_false, Option.some.injEq] at h2
    cases h2
    exact hIi
  | true =>
    simp only [if_pos] at h2
    rcases Option.bind_eq_some.mp h2 with ⟨s2, h3, h4⟩
    have hI2 : InvChunks s2 := by
      by_cases he : exposed (inserted sr p b) p
      · rw [if_pos he] at h3
        intro q
        have hfr := draw_block_true_frame h3
        rw [hfr.1, hfr.2.1]
        exact hIi q
      · rw [if_neg he] at h3
        cases h3
        exact hIi
    simp only [Option.some.injEq] at h4
    cases h4
    intro q
    rw [(redraw_neighbors_frame s2 p).1, (redraw_neighbors_frame s2 p).2.1]
    exact hI2 q

theorem generate_chunk_column_preserves_invChunks (s : WState) (x z : Int)
    (sm : ℚ) (mh : Nat) (s' : WState)
    (hs : generate_chunk_column s x z sm mh = some s') (hI : InvChunks s) :
    InvChunks s' := by
  unfold generate_chunk_column at hs
  exact foldlM_option_preserve InvChunks _
    (fun st a st' hP hf => add_block_preserves_invChunks st _ _ _ st' hf hP)
    _ s s' hI hs

theorem generate_chunk_preserves_invChunks (s : WState) (c : Pos) (u : Bool)
    (s' : WState) (hs : generate_chunk s c u = some s') (hI : InvChunks s) :
    InvChunks s' := by
  unfold generate_chunk at hs
  by_cases hg : s.chunks_generated c
  · rw [if_pos hg] at hs
    cases hs
    exact hI
  · rw [if_neg hg] at hs
    dsimp only [randint_20_30] at hs
    cases u with
    | false =>
      simp only [Bool.false_eq_true, if_false, Option.some.injEq] at hs
      cases hs
      exact fun q => hI q
    | true =>
      simp only [if_pos] at hs
      have hIm : InvChunks { s with
          chunks_generated := updFun s.chunks_generated c true, rand_idx := s.rand_idx + 1 } :=
        fun q => hI q
      exact foldlM_option_preserve InvChunks _
        (fun st a st' hP hf =>
          generate_chunk_column_preserves_invChunks st a.1 a.2 _ _ st' hf hP)
        (chunk_columns c) _ s' hIm hs

theorem run_item_preserves_invChunks (s : WState) (it : WorkItem) (s' : WState)
    (hs : run_item s it = some s') (hI : InvChunks s) : InvChunks s' := by
  cases it with
  | drawGL p => cases hs; exact hI
  | undrawGL p => cases hs; exact hI
  | genChunk c => exact generate_chunk_preserves_invChunks s c false s' hs hI
  | genColumn x z sm mh =>
    exact generate_chunk_column_preserves_invChunks s x z sm mh s' hs hI

theorem update_round_preserves_invChunks (s s' : WState)
    (t : List (QTag × WorkItem)) (e : Bool)
    (hs : update_round s = some (s', t, e)) (hI : InvChunks s) : InvChunks s' := by
  unfold update_round at hs
  cases hdq : s.drawing_queue with
  | nil =>
    rw [hdq] at hs
    cases hgq : s.generation_queue with
    | nil =>
      rw [hgq] at hs
      simp only [Option.some.injEq, Prod.mk.injEq] at hs
      exact hs.1 ▸ hI
    | cons it rest =>
      rw [hgq] at hs
      rcases Option.bind_eq_some.mp hs with ⟨s1, h1, h2⟩
      simp only [Option.some.injEq, Prod.mk.injEq] at h2
      exact h2.1 ▸ run_item_preserves_invChunks _ it s1 h1 (fun q => hI q)
  | cons it rest =>
    rw [hdq] at hs
    rcases Option.bind_eq_some.mp hs with ⟨s1, h1, h2⟩
    have hI1 := run_item_preserves_invChunks _ it s1 h1 (fun q => hI q)
    cases hgq : s1.generation_queue with
    | nil =>
      rw [hgq] at h2
      simp only [Option.some.injEq, Prod.mk.injEq] at h2
      exact h2.1 ▸ hI1
    | cons it2 rest2 =>
      rw [hgq] at h2
      rcases Option.bind_eq_some.mp h2 with ⟨s2, h3, h4⟩
      simp only [Option.some.injEq, Prod.mk.injEq] at h4
      exact h4.1 ▸ run_item_preserves_invChunks _ it2 s2 h3 (fun q => hI1 q)

theorem update_preserves_invChunks (fuel : Nat) (s s' : WState)
    (t : List (QTag × WorkItem)) (hs : update fuel s = some (s', t))
    (hI : InvChunks s) : InvChunks s' := by
  induction fuel generalizing s t with
  | zero =>
    simp only [update, Option.some.injEq, Prod.mk.injEq] at hs
    exact hs.1 ▸ hI
  | succ fuel ih =>
    unfold update at hs
    rcases Option.bind_eq_some.mp hs with ⟨r, h1, h2⟩
    obtain ⟨s1, t1, e⟩ := r
    have hI1 := update_round_preserves_invChunks s s1 t1 e h1 hI
    dsimp only at h2
    cases e with
    | true =>
      simp only [if_pos, Option.some.injEq, Prod.mk.injEq] at h2
      exact h2.1 ▸ hI1
    | false =>
      simp only [Bool.false_eq_true, if_false] at h2
      rcases Option.bind_eq_some.mp h2 with ⟨r2, h3, h4⟩
      simp only [Option.some.injEq, Prod.mk.injEq] at h4
      exact ih s1 r2.2 (h3.trans (by rw [← h4.1])) hI1

/-- C8: every place and clear — with either urgency — and the generation paths
built on them (column generation, chunk generation, queue draining) preserve
the ChunkIndex invariant: a position is counted exactly once in the collection
of its own chunk `(x / 16, 0, z / 16)` iff it is a key of `blocks`, and
appears in no other chunk's collection. -/
theorem place_clear_preserve_chunk_index_invariant :
    (∀ (s : WState) (p : Pos) (b : BlockType) (u : Bool) (s' : WState),
        InvChunks s → add_block s p b u = some s' → InvChunks s')
    ∧ (∀ (s : WState) (p : Pos) (u : Bool) (s' : WState),
        InvChunks s → remove_block s p u = some s' → InvChunks s')
    ∧ (∀ (s : WState) (c : Pos) (u : Bool) (s' : WState),
        InvChunks s → generate_chunk s c u = some s' → InvChunks s')
    ∧ (∀ (fuel : Nat) (s s' : WState) (t : List (QTag × WorkItem)),
        InvChunks s → update fuel s = some (s', t) → InvChunks s') :=
  ⟨fun s p b u s' hI hs => add_block_preserves_invChunks s p b u s' hs hI,
   fun s p u s' hI hs => remove_block_preserves_invChunks s p u s' hs hI,
   fun s c u s' hI hs => generate_chunk_preserves_invChunks s c u s' hs hI,
   fun fuel s s' t hI hs => update_preserves_invChunks fuel s s' t hs hI⟩

/-- Witness for C8: the invariant holds in the fresh world and is preserved
through a placement at the origin. -/
theorem place_clear_preserve_chunk_index_invariant_witness :
    InvChunks st0 ∧ InvChunks c3s1 :=
  have hI : InvChunks st0 := fun p => ⟨rfl, fun c _ hmem => (List.not_mem_nil p) hmem⟩
  ⟨hI, place_clear_preserve_chunk_index_invariant.1 st0 (0, 0, 0) .grass true c3s1
    hI (eq_some_getD st0 (by decide))⟩

/-- The work items a dequeued item appends to the generation queue when it
executes: only a non-urgent `generate_chunk` call appends (one column item per
chunk column, with the smoothness it draws); everything else appends
nothing. -/
def item_appends (s : WState) (it : WorkItem) : List WorkItem :=
  match it with
  | .genChunk c =>
      if s.chunks_generated c then []
      else gen_column_items c ((20 + s.rand_seq s.rand_idx % 11 : Nat) : ℚ)
  | _ => []

/-- Items the program ever puts on the drawing queue: renderer draws/undraws. -/
def draw_only : WorkItem → Bool
  | .drawGL _ => true
  | .undrawGL _ => true
  | _ => false

/-- The drawing-queue items of an execution trace, in execution order. -/
def drawTrace (t : List (QTag × WorkItem)) : List WorkItem :=
  (t.filter (fun e => e.1 == QTag.drawQ)).map (fun e => e.2)

/-- The generation-queue items of an execution trace, in execution order. -/
def genTrace (t : List (QTag × WorkItem)) : List WorkItem :=
  (t.filter (fun e => e.1 == QTag.genQ)).map (fun e => e.2)

theorem drawTrace_append (t1 t2 : List (QTag × WorkItem)) :
    drawTrace (t1 ++ t2) = drawTrace t1 ++ drawTrace t2 := by
  unfold drawTrace
  rw [List.filter_append, List.map_append]

theorem genTrace_append (t1 t2 : List (QTag × WorkItem)) :
    genTrace (t1 ++ t2) = genTrace t1 ++ genTrace t2 := by
  unfold genTrace
  rw [List.filter_append, List.map_append]

theorem add_block_false_queues (s : WState) (p : Pos) (b : BlockType)
    (s' : WState) (hs : add_block s p b false = some s') :
    s'.drawing_queue = s.drawing_queue ∧ s'.generation_queue = s.generation_queue := by
  unfold add_block at hs
  rcases Option.bind_eq_some.mp hs with ⟨sr, h1, h2⟩
  have hr : sr.drawing_queue = s.drawing_queue ∧ sr.generation_queue = s.generation_queue := by
    by_cases hb : (s.blocks p).isSome
    · rw [if_pos hb] at h1
      obtain ⟨_, _, g3, g4, _, _⟩ := remove_block_frame s p true sr h1
      exact ⟨g3, g4⟩
    · rw [if_neg hb] at h1
      cases h1
      exact ⟨rfl, rfl⟩
  dsimp only at h2
  simp only [Bool.false_eq_true, if_false, Option.some.injEq] at h2
  cases h2
  exact hr

theorem generate_chunk_column_queues (s : WState) (x z : Int) (sm : ℚ)
    (mh : Nat) (s' : WState) (hs : generate_chunk_column s x z sm mh = some s') :
    s'.drawing_queue = s.drawing_queue ∧ s'.generation_queue = s.generation_queue := by
  unfold generate_chunk_column at hs
  exact foldlM_option_preserve
    (fun st => st.drawing_queue = s.drawing_queue ∧ st.generation_queue = s.generation_queue)
    _ (fun st a st' hP hf => by
        obtain ⟨q1, q2⟩ := add_block_false_queues st _ _ st' hf
        exact ⟨q1.trans hP.1, q2.trans hP.2⟩)
    _ s s' ⟨rfl, rfl⟩ hs

theorem run_item_queues (s : WState) (it : WorkItem) (s' : WState)
    (hs : run_item s it = some s') :
    s'.drawing_queue = s.drawing_queue
    ∧ s'.generation_queue = s.generation_queue ++ item_appends s it := by
  cases it with
  | drawGL p =>
    cases hs
    exact ⟨rfl, by simp [item_appends]⟩
  | undrawGL p =>
    cases hs
    exact ⟨rfl, by simp [item_appends]⟩
  | genColumn x z sm mh =>
    obtain ⟨q1, q2⟩ := generate_chunk_column_queues s x z sm mh s' hs
    exact ⟨q1, by simp [item_appends, q2]⟩
  | genChunk c =>
    change generate_chunk s c false = some s' at hs
    unfold generate_chunk at hs
    by_cases hg : s.chunks_generated c
    · rw [if_pos hg] at hs
      cases hs
      simp [item_appends, hg]
    · rw [if_neg hg] at hs
      dsimp only [randint_20_30] at hs
      simp only [Bool.false_eq_true, if_false, Option.some.injEq] at hs
      cases hs
      simp [item_appends, hg]

/-- A work item of the drawing queue executes as the identity on world state. -/
theorem run_item_draw_only (s : WState) (it : WorkItem)
    (h : draw_only it = true) : run_item s it = some s := by
  cases it with
  | drawGL p => rfl
  | undrawGL p => rfl
  | genChunk c => cases h
  | genColumn x z sm mh => cases h

theorem update_round_spec_aux (s s' : WState) (t : List (QTag × WorkItem))
    (e : Bool) (dq gq : List WorkItem)
    (hdq : s.drawing_queue = dq) (hgq : s.generation_queue = gq)
    (hs : update_round s = some (s', t, e)) :
    drawTrace t ++ s'.drawing_queue = dq
    ∧ (∃ app : List WorkItem, genTrace t ++ s'.generation_queue = gq ++ app)
    ∧ (e = true → s' = s ∧ t = []) := by
  unfold update_round at hs
  rw [hdq] at hs
  cases dq with
  | nil =>
    cases gq with
    | nil =>
      rw [hgq] at hs
      simp only [Option.some.injEq, Prod.mk.injEq] at hs
      obtain ⟨rfl, rfl, rfl⟩ := hs
      refine ⟨by rw [hdq]; rfl, ⟨[], by rw [hgq]; rfl⟩, fun _ => ⟨rfl, rfl⟩⟩
    | cons it rest =>
      rw [hgq] at hs
      rcases Option.bind_eq_some.mp hs with ⟨s1, h1, h2⟩
      simp only [Option.some.injEq, Prod.mk.injEq] at h2
      obtain ⟨rfl, rfl, rfl⟩ := h2
      obtain ⟨q1, q2⟩ := run_item_queues _ it s1 h1
      have q1' : s1.drawing_queue = [] := q1
      refine ⟨?_,
        ⟨_, by rw [show genTrace [(QTag.genQ, it)] = [it] from rfl, q2]; rfl⟩,
        fun he => by cases he⟩
      show drawTrace [(QTag.genQ, it)] ++ s1.drawing_queue = []
      rw [show drawTrace [(QTag.genQ, it)] = [] from rfl, q1']
      rfl
  | cons it rest =>
    rcases Option.bind_eq_some.mp hs with ⟨s1, h1, h2⟩
    obtain ⟨d1, d2⟩ := run_item_queues _ it s1 h1
    have d1' : s1.drawing_queue = rest := d1
    have d2' : s1.generation_queue
        = gq ++ item_appends { s with drawing_queue := rest } it := by
      rw [← hgq]
      exact d2
    cases hgq1 : s1.generation_queue with
    | nil =>
      rw [hgq1] at h2
      simp only [Option.some.injEq, Prod.mk.injEq] at h2
      obtain ⟨rfl, rfl, rfl⟩ := h2
      rw [hgq1] at d2'
      rcases List.append_eq_nil.mp d2'.symm with ⟨hg, _⟩
      subst hg
      refine ⟨?_, ⟨[], ?_⟩, fun he => by cases he⟩
      · show drawTrace [(QTag.drawQ, it)] ++ s1.drawing_queue = it :: rest
        rw [show drawTrace [(QTag.drawQ, it)] = [it] from rfl, d1']
        rfl
      · show genTrace [(QTag.drawQ, it)] ++ s1.generation_queue = [] ++ []
        rw [show genTrace [(QTag.drawQ, it)] = [] from rfl, hgq1]
    | cons it2 rest2 =>
      rw [hgq1] at h2
      rcases Option.bind_eq_some.mp h2 with ⟨s2, h3, h4⟩
      simp only [Option.some.injEq, Prod.mk.injEq] at h4
      obtain ⟨rfl, rfl, rfl⟩ := h4
      obtain ⟨g1, g2⟩ := run_item_queues _ it2 s2 h3
      have g1' : s2.drawing_queue = s1.drawing_queue := g1
      have g2' : s2.generation_queue
          = rest2 ++ item_appends { s1 with generation_queue := rest2 } it2 := g2
      refine ⟨?_, ⟨item_appends { s with drawing_queue := rest } it
          ++ item_appends { s1 with generation_queue := rest2 } it2, ?_⟩,
        fun he => by cases he⟩
      · show drawTrace [(QTag.drawQ, it), (QTag.genQ, it2)] ++ s2.drawing_queue
          = it :: rest
        rw [show drawTrace [(QTag.drawQ, it), (QTag.genQ, it2)] = [it] from rfl,
          g1', d1']
        rfl
      · rw [show genTrace [(QTag.drawQ, it), (QTag.genQ, it2)] = [it2] from rfl, g2']
        have hmid : gq ++ item_appends { s with drawing_queue := rest } it
            = it2 :: rest2 := by
          rw [← hgq1]
          exact d2'.symm
        rw [← List.append_assoc gq, hmid]
        rfl

theorem update_round_spec (s s' : WState) (t : List (QTag × WorkItem)) (e : Bool)
    (hs : update_round s = some (s', t, e)) :
    drawTrace t ++ s'.drawing_queue = s.drawing_queue
    ∧ (∃ app : List WorkItem,
        genTrace t ++ s'.generation_queue = s.generation_queue ++ app)
    ∧ (e = true → s' = s ∧ t = []) :=
  update_round_spec_aux s s' t e _ _ rfl rfl hs

theorem update_conservation (fuel : Nat) (s s' : WState)
    (t : List (QTag × WorkItem)) (hs : update fuel s = some (s', t)) :
    drawTrace t ++ s'.drawing_queue = s.drawing_queue
    ∧ ∃ app : List WorkItem,
        genTrace t ++ s'.generation_queue = s.generation_queue ++ app := by
  induction fuel generalizing s t with
  | zero =>
    simp only [update, Option.some.injEq, Prod.mk.injEq] at hs
    obtain ⟨rfl, rfl⟩ := hs
    exact ⟨by simp [drawTrace], ⟨[], by simp [genTrace]⟩⟩
  | succ fuel ih =>
    unfold update at hs
    rcases Option.bind_eq_some.mp hs with ⟨r, h1, h2⟩
    obtain ⟨s1, t1, e⟩ := r
    obtain ⟨hd1, ⟨a1, hg1⟩, hempty⟩ := update_round_spec s s1 t1 e h1
    dsimp only at h2
    cases e with
    | true =>
      simp only [if_pos, Option.some.injEq, Prod.mk.injEq] at h2
      obtain ⟨rfl, rfl⟩ := h2
      exact ⟨hd1, ⟨a1, hg1⟩⟩
    | false =>
      simp only [Bool.false_eq_true, if_false] at h2
      rcases Option.bind_eq_some.mp h2 with ⟨r2, h3, h4⟩
      simp only [Option.some.injEq, Prod.mk.injEq] at h4
      obtain ⟨rfl, rfl⟩ := h4
      obtain ⟨hd2, ⟨a2, hg2⟩⟩ := ih s1 r2.2 (h3.trans (by rw [Prod.mk.eta]))
      constructor
      · rw [drawTrace_append, List.append_assoc, hd2, hd1]
      · refine ⟨a1 ++ a2, ?_⟩
        rw [genTrace_append, List.append_assoc, hg2, ← List.append_assoc, hg1,
          List.append_assoc]

/-- The front of a queue, tagged, or nothing when the queue is empty. -/
def head_tagged (tag : QTag) (q : List WorkItem) : List (QTag × WorkItem) :=
  match q with
  | [] => []
  | it :: _ => [(tag, it)]

theorem update_round_trace_aux (s s' : WState) (t : List (QTag × WorkItem))
    (e : Bool) (dq gq : List WorkItem)
    (hdq : s.drawing_queue = dq) (hgq : s.generation_queue = gq)
    (hWF : ∀ it ∈ dq, draw_only it = true)
    (hs : update_round s = some (s', t, e)) :
    t = head_tagged QTag.drawQ dq ++ head_tagged QTag.genQ gq := by
  unfold update_round at hs
  rw [hdq] at hs
  cases dq with
  | nil =>
    rw [hgq] at hs
    cases gq with
    | nil =>
      simp only [Option.some.injEq, Prod.mk.injEq] at hs
      obtain ⟨rfl, rfl, rfl⟩ := hs
      rfl
    | cons it rest =>
      rcases Option.bind_eq_some.mp hs with ⟨s1, h1, h2⟩
      simp only [Option.some.injEq, Prod.mk.injEq] at h2
      obtain ⟨rfl, rfl, rfl⟩ := h2
      rfl
  | cons it rest =>
    rcases Option.bind_eq_some.mp hs with ⟨s1, h1, h2⟩
    have hit : draw_only it = true := hWF it (List.mem_cons_self it rest)
    rw [run_item_draw_only _ it hit] at h1
    cases h1
    rw [show ({ s with drawing_queue := rest } : WState).generation_queue
        = s.generation_queue from rfl, hgq] at h2
    cases gq with
    | nil =>
      simp only [Option.some.injEq, Prod.mk.injEq] at h2
      obtain ⟨rfl, rfl, rfl⟩ := h2
      rfl
    | cons it2 rest2 =>
      rcases Option.bind_eq_some.mp h2 with ⟨s2, h3, h4⟩
      simp only [Option.some.injEq, Prod.mk.injEq] at h4
      obtain ⟨rfl, rfl, rfl⟩ := h4
      rfl

/-- C7: queue draining.  (i) When both queues are empty, `update` returns
immediately with nothing executed and the state unchanged.  (ii) Each round
pops exactly the front of the drawing queue (if any) first and then the front
of the generation queue (if any) — given the program invariant that the
drawing queue holds only renderer draw/undraw items, whose execution cannot
touch the queues.  (iii) FIFO: over any run, the executed drawing-queue items
followed by the remaining drawing queue reproduce the initial drawing queue
exactly, and the executed generation-queue items followed by the remaining
generation queue reproduce the initial generation queue followed by the items
appended during the run, in order — so the round-robin never reorders a
queue's internal order. -/
theorem update_round_robin_fifo :
    (∀ (fuel : Nat) (s : WState),
        s.drawing_queue = [] → s.generation_queue = [] →
          update fuel s = some (s, []))
    ∧ (∀ (s s' : WState) (t : List (QTag × WorkItem)) (e : Bool),
        (∀ it ∈ s.drawing_queue, draw_only it = true) →
        update_round s = some (s', t, e) →
          t = head_tagged QTag.drawQ s.drawing_queue
            ++ head_tagged QTag.genQ s.generation_queue)
    ∧ (∀ (fuel : Nat) (s s' : WState) (t : List (QTag × WorkItem)),
        update fuel s = some (s', t) →
          drawTrace t ++ s'.drawing_queue = s.drawing_queue
          ∧ ∃ app : List WorkItem,
              genTrace t ++ s'.generation_queue = s.generation_queue ++ app) := by
  refine ⟨?_, ?_, fun fuel s s' t hs => update_conservation fuel s s' t hs⟩
  · intro fuel s hdq hgq
    cases fuel with
    | zero => rfl
    | succ fuel =>
      have hr : update_round s = some (s, [], true) := by
        simp only [update_round, hdq, hgq]
      unfold update
      rw [hr]
      rfl
  · intro s s' t e hWF hs
    exact update_round_trace_aux s s' t e _ _ rfl rfl hWF hs

/-- Witness for C7: on the fresh world (both queues empty) `update` returns
the state unchanged with an empty trace. -/
theorem update_round_robin_fifo_witness :
    update 3 st0 = some (st0, []) :=
  update_round_robin_fifo.1 3 st0 rfl rfl

theorem qAxis_qAxisSet (q : QPos) (a : Fin 3) (v : ℚ) :
    qAxis (qAxisSet q a v) a = v := by
  match a with
  | 0 => rfl
  | 1 => rfl
  | 2 => rfl

theorem qAxisSet_self (q : QPos) (a : Fin 3) :
    qAxisSet q a (qAxis q a) = q := by
  match a with
  | 0 => rfl
  | 1 => rfl
  | 2 => rfl

/-- The world with a single solid block at `(0, 4, 0)`. -/
def c6s : WState := (add_block st0 (0, 4, 0) .grass true).getD st0

/-- C6: collision resolution.  (i) The spec's concrete scenario: an actor at
`(0.0, 5.05, 0.0)` of height 2 above the solid block at `(0, 4, 0)` is not
pushed at all (the 0.05 overlap is within the 0.1 tolerance), so the resolved
overlap past the discretized cell boundary along the y axis is ≤ 0.1.
(ii) A per-axis/direction step changes the position only if the overlap
strictly exceeds the 0.1 tolerance and one of the `height` probed cells
(offset by one in that axis/direction, then lowered by `dy`) is solid, and
then it subtracts exactly the excess over 0.1, leaving a residual overlap of
exactly 0.1.  (iii) Conversely, when the overlap is ≥ 0.1 and a probed cell is
solid, the step performs exactly that push-back. -/
theorem collides_pushback_exact :
    (collides c6s ((0 : ℚ), 505/100, 0) 2 = ((0 : ℚ), 505/100, 0)
      ∧ qAxis (collides c6s ((0 : ℚ), 505/100, 0) 2) 1
          - ((discretize ((0 : ℚ), 505/100, 0)).2.1 : ℚ) ≤ 1/10)
    ∧ (∀ (s : WState) (discPos : Pos) (height : Nat) (pos : QPos)
          (axis : Fin 3) (dir : Int),
        dir = 1 ∨ dir = -1 →
        collide_step s discPos height pos axis dir ≠ pos →
          1/10 < (qAxis pos axis - (iAxis discPos axis : ℚ)) * dir
          ∧ blocked_below s discPos axis dir height = true
          ∧ collide_step s discPos height pos axis dir
              = qAxisSet pos axis (qAxis pos axis
                  - ((qAxis pos axis - (iAxis discPos axis : ℚ)) * dir - 1/10) * dir)
          ∧ (qAxis (collide_step s discPos height pos axis dir) axis
              - (iAxis discPos axis : ℚ)) * dir = 1/10)
    ∧ (∀ (s : WState) (discPos : Pos) (height : Nat) (pos : QPos)
          (axis : Fin 3) (dir : Int),
        ¬ ((qAxis pos axis - (iAxis discPos axis : ℚ)) * dir < 1/10) →
        blocked_below s discPos axis dir height = true →
          collide_step s discPos height pos axis dir
            = qAxisSet pos axis (qAxis pos axis
                - ((qAxis pos axis - (iAxis discPos axis : ℚ)) * dir - 1/10) * dir)) := by
  refine ⟨⟨by with_unfolding_all decide, by with_unfolding_all decide⟩, ?_, ?_⟩
  · intro s discPos height pos axis dir hdir hne
    unfold collide_step at hne ⊢
    by_cases hov : (qAxis pos axis - (iAxis discPos axis : ℚ)) * dir < 1/10
    · rw [if_pos hov] at hne
      exact absurd rfl hne
    · rw [if_neg hov] at hne ⊢
      by_cases hbl : blocked_below s discPos axis dir height
      · rw [if_pos hbl] at hne ⊢
        have hlt : 1/10 < (qAxis pos axis - (iAxis discPos axis : ℚ)) * dir := by
          rcases lt_or_eq_of_le (le_of_not_lt hov) with h | h
          · exact h
          · exfalso
            apply hne
            rw [← h]
            simp only [sub_self, zero_mul, sub_zero]
            exact qAxisSet_self pos axis
        refine ⟨hlt, hbl, rfl, ?_⟩
        rw [qAxis_qAxisSet]
        rcases hdir with rfl | rfl
        · push_cast
          ring
        · push_cast
          ring
      · rw [if_neg hbl] at hne
        exact absurd rfl hne
  · intro s discPos height pos axis dir hov hbl
    unfold collide_step
    rw [if_neg hov, if_pos hbl]

/-- A world with a single solid block at `(1, 0, 0)`, used to instantiate the
push-back characterization. -/
def c6s2 : WState := (add_block st0 (1, 0, 0) .grass true).getD st0

/-- Witness for C6: an actor column at x = 1/4 beside the solid block at
`(1,0,0)` overlaps by 1/4 > 0.1 in direction +x; the step pushes it back so
that the residual overlap is exactly 0.1. -/
theorem collides_pushback_exact_witness :
    blocked_below c6s2 (0, 0, 0) 0 1 1 = true
    ∧ (qAxis (collide_step c6s2 (0, 0, 0) 1 ((1/4 : ℚ), 0, 0) 0 1) 0
        - ((iAxis (0, 0, 0) 0 : Int) : ℚ)) * ((1 : Int) : ℚ) = 1/10 :=
  ⟨by with_unfolding_all decide,
   (collides_pushback_exact.2.1 c6s2 (0, 0, 0) 1 ((1/4 : ℚ), 0, 0) 0 1
      (Or.inl rfl) (by with_unfolding_all decide)).2.2.2⟩

end MClone
